import Mathlib

/-!
# Verification of the `share_diffs` fountain-code transport and PDF transport

Shallow embedding of `src/share_diffs/qr.py` (LT fountain encoder: `XorShift32`,
`robust_soliton_cdf`, `sample_degree`, `lt_encode_symbol`, `build_frames`) and of
`src/share_diffs/pdfs.py` (`split_bytes_into_n`, `attach_to_pdfs`,
`recover_from_pdfs`), together with a peeling decoder modelled from the spec
(the repository ships no decoder source).

Modelling conventions:
* Bytes are natural numbers; byte strings are `List ℕ`.  Machine 32-bit
  arithmetic is `ℕ` with explicit `% 2^32` masking, exactly where the Python
  code masks with `& 0xFFFFFFFF`.
* Python floats are modelled by `ℚ`.  The two transcendental scalars of
  `robust_soliton_cdf` — `R = max(1, int(0.1*log(K/delta)*sqrt(K)))` and
  `log(R/delta)` — are taken as parameters (`R : ℕ`, `lg : ℚ`); everything
  downstream of them is exact field arithmetic, mirrored over `ℚ`.
* `os.urandom` outputs (`fec_seed`, the session id, the per-frame salts) are
  parameters of `build_frames`.
* The unbounded `while` loop of `lt_encode_symbol` is embedded with an explicit
  fuel counter (the loop has no cap in the source); termination theorems below
  show the fuel used in `lt_encode_symbol` always suffices for any chunk count
  below `2^32`.
-/

/-! ## XorShift32 (qr.py lines 44-57) -/

/-- First xorshift substep: `x ^= (x << 13) & 0xFFFFFFFF`. -/
def xsA (x : ℕ) : ℕ := x ^^^ ((x <<< 13) % 2 ^ 32)

/-- Second xorshift substep: `x ^= (x >> 17) & 0xFFFFFFFF` (for a 32-bit `x`
the mask on a right shift is a no-op, as in the source). -/
def xsB (x : ℕ) : ℕ := x ^^^ (x >>> 17)

/-- Third xorshift substep: `x ^= (x << 5) & 0xFFFFFFFF`. -/
def xsC (x : ℕ) : ℕ := x ^^^ ((x <<< 5) % 2 ^ 32)

/-- One step of the 32-bit xorshift generator `XorShift32.rand32`, including
the final `self.state = x & 0xFFFFFFFF` mask.  The returned value is also the
new state. -/
def xsStep (x : ℕ) : ℕ := xsC (xsB (xsA x)) % 2 ^ 32

/-- `XorShift32.__init__`: `state = (seed or 0xDEADBEEF) & 0xFFFFFFFF`. -/
def xsInit (seed : ℕ) : ℕ :=
  (if seed = 0 then 0xDEADBEEF else seed) % 2 ^ 32

/-- `XorShift32.randint(a, b) = a + rand32() % (b - a + 1)`; we only need the
drawn value, the new state is `xsStep` of the old one. -/
def xsRandint (a b s : ℕ) : ℕ :=
  a + xsStep s % (b - a + 1)

/-! ## Robust soliton CDF (qr.py lines 60-81)

`R` stands for the already-computed `max(1, int(c*log(K/delta)*sqrt(K)))` and
`lg` for `log(R/delta)`; both are float-valued in the source and enter the
definition only as scalars. -/

/-- `tau` array of `robust_soliton_cdf`: set only for `d = 1 .. K-1` (the
source loop is `for d in range(1, K)`), with `cut = max(1, K // R)`. -/
def rsTau (K R : ℕ) (lg : ℚ) (d : ℕ) : ℚ :=
  let cut := max 1 (K / R)
  if 1 ≤ d ∧ d < K then
    if d < cut then (R : ℚ) / (d * K)
    else if d = cut then (R : ℚ) * lg / K
    else 0
  else 0

/-- `rho` array: ideal soliton, `rho[1] = 1/K`, `rho[d] = 1/(d(d-1))` for
`d = 2 .. K`. -/
def rsRho (K d : ℕ) : ℚ :=
  if d = 1 then 1 / K
  else if 2 ≤ d ∧ d ≤ K then 1 / (d * (d - 1 : ℚ))
  else 0

/-- `Z = sum(rho[1:]) + sum(tau[1:])` (index 0 of both arrays is `0.0`, so the
sum over `0 .. K` is the same). -/
def rsZ (K R : ℕ) (lg : ℚ) : ℚ :=
  (∑ d ∈ Finset.range (K + 1), rsRho K d) + ∑ d ∈ Finset.range (K + 1), rsTau K R lg d

/-- `pmf[d] = (rho[d] + tau[d]) / Z`. -/
def rsPmf (K R : ℕ) (lg : ℚ) (d : ℕ) : ℚ :=
  (rsRho K d + rsTau K R lg d) / rsZ K R lg

/-- The running-sum loop `for d in range(1, K+1): s += pmf[d]; cdf.append(s)`,
emitting `cnt` entries for `d, d+1, …` starting from accumulator `s`. -/
def rsCdfAux (pmf : ℕ → ℚ) : ℕ → ℚ → ℕ → List ℚ
  | 0, _, _ => []
  | cnt + 1, s, d =>
    let s' := s + pmf d
    s' :: rsCdfAux pmf cnt s' (d + 1)

/-- `robust_soliton_cdf(K)` with the two float scalars as parameters: builds
`cdf = [0.0]` followed by the running sums, then forces `cdf[-1] = 1.0`
(modelled as `dropLast ++ [1]`), unconditionally. -/
def robust_soliton_cdf (K R : ℕ) (lg : ℚ) : List ℚ :=
  let cdf := 0 :: rsCdfAux (rsPmf K R lg) K 0 1
  cdf.dropLast ++ [1]

/-! ## Degree sampling (qr.py lines 84-93) -/

/-- The binary-search loop of `sample_degree`:
`while lo < hi: mid = (lo+hi)//2; if cdf[mid] >= u: hi = mid else lo = mid+1`.
The first argument is a structural-recursion bound; `hi - lo` halves each
iteration, so any bound `≥ hi - lo` yields the loop's exit value. -/
def sdAux (cdf : List ℚ) (u : ℚ) : ℕ → ℕ → ℕ → ℕ
  | 0, lo, _ => lo
  | fuel + 1, lo, hi =>
    if lo < hi then
      let mid := (lo + hi) / 2
      if u ≤ cdf.getD mid 0 then sdAux cdf u fuel lo mid
      else sdAux cdf u fuel (mid + 1) hi
    else lo

/-- The binary search of `sample_degree`, with its sufficient bound. -/
def sdLoop (cdf : List ℚ) (u : ℚ) (lo hi : ℕ) : ℕ :=
  sdAux cdf u (hi - lo) lo hi

/-- `sample_degree(cdf, rng)`: draws `u = rand32() / 2^32` and binary-searches
the CDF with `lo, hi = 1, len(cdf) - 1`.  Returns the degree together with the
advanced generator state. -/
def sample_degree (cdf : List ℚ) (s : ℕ) : ℕ × ℕ :=
  let v := xsStep s
  (sdLoop cdf ((v : ℚ) / 2 ^ 32) 1 (cdf.length - 1), v)

/-! ## Distinct-index rejection sampling (qr.py lines 104-106)

`chosen = set(); while len(chosen) < d: chosen.add(rng.randint(0, K-1))`.
The Python set is a duplicate-free list (`List.insert` adds only new
elements); the source loop has no iteration cap, so the embedding carries an
explicit fuel counter and returns `none` if the fuel runs out. -/

/-- The rejection-sampling loop.  Each iteration draws
`randint(0, K-1) = rand32() % K` and inserts it into the set. -/
def drawFuel (K d : ℕ) : ℕ → ℕ → List ℕ → Option (List ℕ × ℕ)
  | 0, s, chosen => if d ≤ chosen.length then some (chosen, s) else none
  | fuel + 1, s, chosen =>
    if d ≤ chosen.length then some (chosen, s)
    else
      let v := xsStep s
      drawFuel K d fuel v (chosen.insert (v % K))

/-- `drawFuel` succeeds with some finite fuel: the faithful (fuel-free)
termination statement for the source's `while` loop. -/
def drawTerminates (K d s : ℕ) : Prop :=
  ∃ fuel, (drawFuel K d fuel s []).isSome

/-! ## LT symbol encoder (qr.py lines 96-113) -/

/-- Per-symbol seed `(fec_seed ^ sym_id ^ (K << 16)) & 0xFFFFFFFF`. -/
def lt_seed (fecSeed symId K : ℕ) : ℕ :=
  (fecSeed ^^^ symId ^^^ (K <<< 16)) % 2 ^ 32

/-- Fuel given to the rejection loop inside `lt_encode_symbol`; proven below
to be sufficient whenever `K < 2^32`. -/
def ltFuel (K : ℕ) : ℕ := (K + 1) * 2 ^ 32

/-- The degree and the sorted chosen-index list of `lt_encode_symbol`, which
depend only on `(fec_seed, sym_id, K)` and the CDF — not on chunk contents.
Mirrors: seed the RNG, sample the degree, clamp `d = max(1, min(K, d))`, draw
`d` distinct indices, sort them. -/
def lt_indices (K symId fecSeed : ℕ) (cdf : List ℚ) : Option (List ℕ × ℕ) :=
  let s0 := xsInit (lt_seed fecSeed symId K)
  let dg := sample_degree cdf s0
  let d := max 1 (min K dg.1)
  (drawFuel K d (ltFuel K) dg.2 []).map fun cs => (cs.1.insertionSort (· ≤ ·), d)

/-- Byte-wise XOR `out[i] ^= cj[i] for i in range(len(out))`.  (When `cj` is
shorter than `out` the Python code raises `IndexError`; in the program all
chunks share one length, which is the only case the theorems use.) -/
def bytesXor (out cj : List ℕ) : List ℕ :=
  List.zipWith (· ^^^ ·) out cj

/-- `lt_encode_symbol(chunks, sym_id, fec_seed, cdf)`: XOR the chunks at the
chosen indices (`out = chunks[idxs[0]]`, then fold over `idxs[1:]`), returning
`(payload, d)`.  `none` only if the rejection loop exhausts its fuel. -/
def lt_encode_symbol (chunks : List (List ℕ)) (symId fecSeed : ℕ) (cdf : List ℚ) :
    Option (List ℕ × ℕ) :=
  (lt_indices chunks.length symId fecSeed cdf).bind fun id =>
    match id.1 with
    | [] => none
    | i0 :: rest =>
      some (rest.foldl (fun out j => bytesXor out (chunks.getD j [])) (chunks.getD i0 []), id.2)

/-! ## Chunker (qr.py lines 119-131) -/

/-- The slicing loop of `[data[i:i+chunk_size] for i in range(0, len(data),
chunk_size)]`, with a structural-recursion bound as first argument (each slice
consumes at least one byte when `chunk_size ≥ 1`, so `data.length` bounds the
number of slices). -/
def chunkRawAux (csz : ℕ) : ℕ → List ℕ → List (List ℕ)
  | 0, _ => []
  | _, [] => []
  | fuel + 1, data => data.take csz :: chunkRawAux csz fuel (data.drop csz)

/-- `[data[i:i+chunk_size] for i in range(0, len(data), chunk_size)]`.
For `chunk_size = 0` the Python `range` raises `ValueError` (a caller-contract
violation per the spec); the embedding returns `[]` there. -/
def chunkRaw (csz : ℕ) (data : List ℕ) : List (List ℕ) :=
  if csz = 0 then [] else chunkRawAux csz data.length data

/-- `max(len(c) for c in chunks)` (the chunk list is never empty). -/
def maxLen (chunks : List (List ℕ)) : ℕ :=
  (chunks.map List.length).foldr max 0

/-- The raw chunk list with the `if not chunks: chunks = [bytearray([0])]`
fallback applied. -/
def chunkRawOr (data : List ℕ) (csz : ℕ) : List (List ℕ) :=
  let raw := chunkRaw csz data
  if raw = [] then [[0]] else raw

/-- The padded chunk length `cs` of `build_frames`. -/
def chunk_cs (data : List ℕ) (csz : ℕ) : ℕ :=
  maxLen (chunkRawOr data csz)

/-- The chunking phase of `build_frames`: split, fall back to `[b"\x00"]` on
empty input, and pad every chunk with trailing zero bytes up to `cs`. -/
def build_chunks (data : List ℕ) (csz : ℕ) : List (List ℕ) :=
  let chunks := chunkRawOr data csz
  let cs := maxLen chunks
  chunks.map fun c => c ++ List.replicate (cs - c.length) 0

/-! ## Frames (qr.py lines 132-155) -/

/-- One wire frame: exactly the ten fields of the dict built in
`build_frames` — version `v`, session id `sid`, total length `len`, chunk
count `K`, chunk size `cs`, symbol index `i`, fountain seed `r`, degree `d`,
symbol payload `p`, anti-cache salt `x`.  (`sid`, `p` and `x` are stored
base64url-armored in the source; the armoring is an injective byte-to-ASCII
encoding with no semantic role, so the embedding keeps the raw bytes.) -/
structure Frame where
  v : ℕ
  sid : List ℕ
  len : ℕ
  K : ℕ
  cs : ℕ
  i : ℕ
  r : ℕ
  d : ℕ
  p : List ℕ
  x : List ℕ
  deriving DecidableEq, Repr

/-- The `for sym in range(N)` loop of `build_frames`, collecting the frames;
`none` as soon as one symbol's rejection loop exhausts its fuel. -/
def framesLoop (f : ℕ → Option Frame) : List ℕ → Option (List Frame)
  | [] => some []
  | sym :: rest => (f sym).bind fun fr => (framesLoop f rest).map fun l => fr :: l

/-- `build_frames(data, chunk_size, overhead)`.  The `os.urandom` outputs are
parameters: `fecSeed` (the unsigned 32-bit fountain seed), `sid` (the 8-byte
session id) and `salts` (the 2-byte per-frame salt); likewise the two float
scalars `R`, `lg` of `robust_soliton_cdf`.  `N = ceil(K * (1.0 + overhead))`
frames are produced, frame `sym` carrying index `i = sym`. -/
def build_frames (data : List ℕ) (csz : ℕ) (overhead : ℚ) (fecSeed : ℕ)
    (sid : List ℕ) (salts : ℕ → List ℕ) (R : ℕ) (lg : ℚ) : Option (List Frame) :=
  let chunks := build_chunks data csz
  let K := chunks.length
  let cs := chunk_cs data csz
  let cdf := robust_soliton_cdf K R lg
  let N := (⌈(K : ℚ) * (1 + overhead)⌉).toNat
  framesLoop
    (fun sym =>
      (lt_encode_symbol chunks sym fecSeed cdf).map fun pd =>
        { v := 1, sid := sid, len := data.length, K := K, cs := cs, i := sym,
          r := fecSeed, d := pd.2, p := pd.1, x := salts sym })
    (List.range N)

/-! ## PDF transport (pdfs.py) -/

/-- `split_bytes_into_n(data, n)`: `q, r = divmod(len(data), n)`;
`sizes = [q+1]*r + [q]*(n-r)`; successive slices of those sizes.
`none` models the `ValueError` raised when `n < 1` (a negative Python `n`
also lands in that branch, so `n : ℕ` with `n = 0` covers it). -/
def split_bytes_into_n (data : List ℕ) (n : ℕ) : Option (List (List ℕ)) :=
  if n < 1 then none
  else
    let L := data.length
    let q := L / n
    let r := L % n
    let sizes := List.replicate r (q + 1) ++ List.replicate (n - r) q
    some (sizes.foldl (fun acc s => (acc.1 ++ [(data.drop acc.2).take s], acc.2 + s)) ([], 0)).1

/-- Decimal digits, most significant first, with a structural-recursion bound
(`i / 10 < i` for `i ≥ 10`, so `fuel = i` suffices). -/
def natDecimalAux : ℕ → ℕ → List ℕ
  | 0, i => [48 + i % 10]
  | fuel + 1, i => if i < 10 then [48 + i] else natDecimalAux fuel (i / 10) ++ [48 + i % 10]

/-- Decimal digit characters (as code points) of a natural number, as Python's
`str(i)` produces them. -/
def natDecimal (i : ℕ) : List ℕ :=
  natDecimalAux i i

/-- The attachment name `f"file_{i}.bin"`, as a list of character codes. -/
def fileName (i : ℕ) : List ℕ :=
  [102, 105, 108, 101, 95] ++ natDecimal i ++ [46, 98, 105, 110]

/-- Lexicographic string comparison on code-point lists: Python's `str` order,
used by `sorted(payloads.items(), key=lambda x: x[0])`. -/
def lexLe : List ℕ → List ℕ → Bool
  | [], _ => true
  | _ :: _, [] => false
  | a :: as, b :: bs => decide (a < b) || (decide (a = b) && lexLe as bs)

/-- `attach_to_pdfs`: split the data into as many parts as there are input
PDFs and attach part `i` under the name `file_{i}.bin` (one attachment per
PDF, in glob order).  The PDF containers themselves carry no payload
information, so the model keeps the (name, bytes) pairs. -/
def attach_to_pdfs (data : List ℕ) (n : ℕ) : Option (List (List ℕ × List ℕ)) :=
  (split_bytes_into_n data n).map fun parts =>
    ((List.range parts.length).map fileName).zip parts

/-- `recover_from_pdfs`: read each PDF's (single) attachment, sort the
(name, bytes) pairs by name, concatenate the payloads.  An empty folder makes
the source raise `IndexError` (`sorted_payloads[0]`), modelled as `none`.
(The source keys a dict by name first; the attachment names here are pairwise
distinct, so no collapsing occurs.) -/
def recover_from_pdfs (atts : List (List ℕ × List ℕ)) : Option (List ℕ) :=
  match atts with
  | [] => none
  | _ => some (((atts.insertionSort fun a b => lexLe a.1 b.1 = true).map Prod.snd).flatten)

/-! ## GF(2) linear-map machinery for the xorshift period

`xsStep` is XOR-linear on 32-bit words, so its iterates can be computed by
binary exponentiation of the 32×32 bit matrix whose columns are the images of
the basis vectors `2^i`.  A matrix is a 32-element list of column images. -/

/-- Apply a linear map, given by the list of images of the basis vectors
`1, 2, 4, …`, to `x`: XOR of the images at the set bits of `x`. -/
def lmApplyAux : List ℕ → ℕ → ℕ
  | [], _ => 0
  | c :: M, x => (if x % 2 = 1 then c else 0) ^^^ lmApplyAux M (x / 2)

/-- The matrix (list of basis images) of a map `f` on `k` bits. -/
def matOf (f : ℕ → ℕ) (k : ℕ) : List ℕ :=
  (List.range k).map fun i => f (2 ^ i)

/-- Matrix product: basis images of `M ∘ N`. -/
def lmComp (M N : List ℕ) : List ℕ :=
  N.map (lmApplyAux M)

/-- The identity matrix on 32 bits. -/
def lmId : List ℕ :=
  (List.range 32).map (2 ^ ·)

/-- Binary exponentiation of a matrix; the first argument bounds the number of
binary digits of the exponent (`n < 2^fuel`). -/
def lmPowAux (M : List ℕ) : ℕ → ℕ → List ℕ
  | 0, _ => lmId
  | fuel + 1, n =>
    if n = 0 then lmId
    else
      let h := lmPowAux M fuel (n / 2)
      let hh := lmComp h h
      if n % 2 = 1 then lmComp hh M else hh

/-- `M ^ n` for exponents below `2^64`. -/
def lmPow (M : List ℕ) (n : ℕ) : List ℕ :=
  lmPowAux M 64 n

/-- The matrix of one xorshift step. -/
def xsMat : List ℕ :=
  matOf xsStep 32

/-! ## Peeling decoder, modelled from the spec

The repository contains no decoder source (qr.py is "LT fountain (encoder
only)"); §4.6 of the spec defines the receiving state machine.  All
definitions in this section are modelled from the spec. -/

/-- Modelled from the spec: the receiver's `DecodeState` (§3) — session
metadata, the arena of solved chunk slots, the unresolved symbol records
`{remaining unknown chunk indices, running XOR value}`, and the set of seen
symbol indices for de-duplication. -/
structure DecodeState where
  sid : List ℕ
  len : ℕ
  K : ℕ
  cs : ℕ
  solved : List (Option (List ℕ))
  recs : List (List ℕ × List ℕ)
  seen : List ℕ
  deriving DecidableEq, Repr

/-- Modelled from the spec (§4.6 step 3): recompute a frame's chunk-index set
from `(fec_seed, i, K)` by replaying the encoder's RNG procedure, using the
carried degree `d` to know how many indices to draw (the one `rand32` call the
encoder spent on degree sampling is replayed as a skipped draw). -/
def dec_indices (fr : Frame) : Option (List ℕ) :=
  let s0 := xsInit (lt_seed fr.r fr.i fr.K)
  (drawFuel fr.K fr.d (ltFuel fr.K) (xsStep s0) []).map fun c => c.1.insertionSort (· ≤ ·)

/-- Modelled from the spec (§4.6 step 4): remove already-solved chunks from an
index set, XOR-ing their values out of the record's running payload. -/
def reduceRec (solved : List (Option (List ℕ))) (r : List ℕ × List ℕ) : List ℕ × List ℕ :=
  r.1.foldr
    (fun j acc =>
      match solved.getD j none with
      | some v => (acc.1, bytesXor acc.2 v)
      | none => (j :: acc.1, acc.2))
    ([], r.2)

/-- Modelled from the spec (§4.6 step 5): the first "ripe" record — exactly
one unknown chunk index remaining. -/
def findRipe : List (List ℕ × List ℕ) → Option (ℕ × List ℕ)
  | [] => none
  | (is, p) :: rest =>
    match is with
    | [j] => some (j, p)
    | _ => findRipe rest

/-- Modelled from the spec (§4.6 step 6): drain the ripe queue — each ripe
record solves its remaining chunk, every record is reduced by the new chunk,
vacuous records are discarded; repeat.  Each round solves one chunk, so any
bound larger than `K` is enough fuel. -/
def drain : ℕ → DecodeState → DecodeState
  | 0, st => st
  | fuel + 1, st =>
    match findRipe st.recs with
    | none => st
    | some (j, v) =>
      let solved := st.solved.set j (some v)
      let recs := (st.recs.map (reduceRec solved)).filter fun r => !r.1.isEmpty
      drain fuel { st with solved := solved, recs := recs }

/-- Modelled from the spec (§4.6 step 1): a fresh `DecodeState` for the
session of an incoming frame. -/
def initState (fr : Frame) : DecodeState :=
  { sid := fr.sid, len := fr.len, K := fr.K, cs := fr.cs,
    solved := List.replicate fr.K none, recs := [], seen := [] }

/-- Modelled from the spec (§4.6 steps 2-6): process one frame of the current
session — de-duplicate on the symbol index, recompute the index set, reduce by
solved chunks, discard vacuous symbols, insert and drain. -/
def feedBody (st : DecodeState) (fr : Frame) : DecodeState :=
  if fr.i ∈ st.seen then st
  else
    let st1 := { st with seen := fr.i :: st.seen }
    match dec_indices fr with
    | none => st1
    | some idxs =>
      let r := reduceRec st1.solved (idxs, fr.p)
      if r.1.isEmpty then st1
      else drain (st1.K + 1) { st1 with recs := r :: st1.recs }

/-- Modelled from the spec (§4.6 step 1): frames of a different session id
discard the current state and start afresh. -/
def feedFrame (st : DecodeState) (fr : Frame) : DecodeState :=
  if fr.sid = st.sid then feedBody st fr else feedBody (initState fr) fr

/-- Modelled from the spec (§4.6 steps 7-8): feed a frame sequence into the
peeling decoder; if all `K` chunks get solved, the payload is the
concatenation of the chunks truncated to the carried total length, otherwise
the decode is still pending (`none`). -/
def decode_frames (frames : List Frame) : Option (List ℕ) :=
  match frames with
  | [] => none
  | f0 :: _ =>
    let final := frames.foldl feedFrame (initState f0)
    if final.solved.all Option.isSome then
      some ((final.solved.map fun o => o.getD []).flatten.take final.len)
    else none

/-- Record invariant: the running XOR of an unresolved record equals the XOR of
the true chunks at its remaining indices. -/
def RecOK (data : List ℕ) (csz : ℕ) (r : List ℕ × List ℕ) : Prop :=
  (∀ j ∈ r.1, j < (build_chunks data csz).length) ∧
  r.2.length = chunk_cs data csz ∧
  ∀ pos, pos < chunk_cs data csz →
    r.2.getD pos 0 =
      ((r.1.map fun j => ((build_chunks data csz).getD j []).getD pos 0).foldr (· ^^^ ·) 0)

/-- Decoder-state invariant for a session transporting `data` chunked at
`csz`: metadata matches, the solved arena has one slot per chunk, every
solved slot holds the true chunk, and every record satisfies `RecOK`. -/
def DecInv (data : List ℕ) (csz : ℕ) (sid : List ℕ) (st : DecodeState) : Prop :=
  st.sid = sid ∧
  st.len = data.length ∧
  st.K = (build_chunks data csz).length ∧
  st.solved.length = (build_chunks data csz).length ∧
  (∀ j v, st.solved.getD j none = some v → v = (build_chunks data csz).getD j []) ∧
  ∀ r ∈ st.recs, RecOK data csz r

/-- Frame facts carried by every frame of a `build_frames` session. -/
def FrameOK (data : List ℕ) (csz : ℕ) (sid : List ℕ) (fecSeed R : ℕ) (lg : ℚ)
    (fr : Frame) : Prop :=
  fr.sid = sid ∧ fr.len = data.length ∧ fr.K = (build_chunks data csz).length ∧
  fr.r = fecSeed ∧
  lt_encode_symbol (build_chunks data csz) fr.i fecSeed
    (robust_soliton_cdf (build_chunks data csz).length R lg) = some (fr.p, fr.d)

/-! # Theorems -/

/-! ## XOR-linearity and boundedness of the xorshift step -/

theorem shiftLeft_xor_distrib (x y k : ℕ) : (x ^^^ y) <<< k = (x <<< k) ^^^ (y <<< k) := by
  apply Nat.eq_of_testBit_eq
  intro i
  simp [Nat.testBit_shiftLeft, Nat.testBit_xor, Bool.and_xor_distrib_left]

theorem shiftRight_xor_distrib (x y k : ℕ) : (x ^^^ y) >>> k = (x >>> k) ^^^ (y >>> k) := by
  apply Nat.eq_of_testBit_eq
  intro i
  simp [Nat.testBit_shiftRight, Nat.testBit_xor]

theorem mod_two_pow_xor_distrib (x y n : ℕ) :
    (x ^^^ y) % 2 ^ n = (x % 2 ^ n) ^^^ (y % 2 ^ n) := by
  apply Nat.eq_of_testBit_eq
  intro i
  simp [Nat.testBit_mod_two_pow, Nat.testBit_xor, Bool.and_xor_distrib_left]

theorem xor_swap_pairs (a b c d : ℕ) : (a ^^^ b) ^^^ (c ^^^ d) = (a ^^^ c) ^^^ (b ^^^ d) := by
  apply Nat.eq_of_testBit_eq
  intro i
  simp [Nat.testBit_xor, Bool.xor_assoc, Bool.xor_comm, Bool.xor_left_comm]

theorem xsA_linear (x y : ℕ) : xsA (x ^^^ y) = xsA x ^^^ xsA y := by
  unfold xsA
  rw [shiftLeft_xor_distrib, mod_two_pow_xor_distrib, xor_swap_pairs]

theorem xsB_linear (x y : ℕ) : xsB (x ^^^ y) = xsB x ^^^ xsB y := by
  unfold xsB
  rw [shiftRight_xor_distrib, xor_swap_pairs]

theorem xsC_linear (x y : ℕ) : xsC (x ^^^ y) = xsC x ^^^ xsC y := by
  unfold xsC
  rw [shiftLeft_xor_distrib, mod_two_pow_xor_distrib, xor_swap_pairs]

theorem xsStep_linear (x y : ℕ) : xsStep (x ^^^ y) = xsStep x ^^^ xsStep y := by
  unfold xsStep
  rw [xsA_linear, xsB_linear, xsC_linear, mod_two_pow_xor_distrib]

theorem xsStep_lt (x : ℕ) : xsStep x < 2 ^ 32 :=
  Nat.mod_lt _ (by norm_num)

theorem linear_zero {f : ℕ → ℕ} (hf : ∀ a b, f (a ^^^ b) = f a ^^^ f b) : f 0 = 0 := by
  have h := hf 0 0
  rw [Nat.zero_xor, Nat.xor_self] at h
  exact h

theorem iterate_linear {f : ℕ → ℕ} (hf : ∀ a b, f (a ^^^ b) = f a ^^^ f b) :
    ∀ n a b, f^[n] (a ^^^ b) = f^[n] a ^^^ f^[n] b := by
  intro n
  induction n with
  | zero => simp
  | succ n ih =>
    intro a b
    simp only [Function.iterate_succ_apply, hf, ih]

theorem iterate_lt {f : ℕ → ℕ} (hb : ∀ x, x < 2 ^ 32 → f x < 2 ^ 32) :
    ∀ n x, x < 2 ^ 32 → f^[n] x < 2 ^ 32 := by
  intro n
  induction n with
  | zero =>
    intro x hx
    rwa [Function.iterate_zero_apply]
  | succ n ih =>
    intro x hx
    rw [Function.iterate_succ_apply]
    exact ih _ (hb _ hx)

/-! ## Matrix representation of XOR-linear maps -/

theorem matOf_succ (f : ℕ → ℕ) (k : ℕ) :
    matOf f (k + 1) = f 1 :: matOf (fun z => f (2 * z)) k := by
  unfold matOf
  rw [List.range_succ_eq_map]
  simp only [List.map_cons, pow_zero, List.map_map]
  congr 1
  apply List.map_congr_left
  intro i _
  simp only [Function.comp_apply]
  rw [pow_succ, mul_comm]

theorem two_mul_xor_distrib (a b : ℕ) : 2 * (a ^^^ b) = 2 * a ^^^ 2 * b := by
  have h := shiftLeft_xor_distrib a b 1
  simpa [Nat.shiftLeft_eq, mul_comm] using h

theorem one_xor_two_mul (m : ℕ) : 1 ^^^ 2 * m = 1 + 2 * m := by
  apply Nat.eq_of_testBit_eq
  intro i
  cases i with
  | zero => simp [Nat.testBit_xor, Nat.mul_mod_right, Nat.add_mul_mod_self_left]
  | succ j =>
    have h1 : (1 + 2 * m) / 2 = m := by omega
    have h2 : (2 * m) / 2 = m := by omega
    rw [Nat.testBit_xor, Nat.testBit_add_one 1 j, Nat.testBit_add_one (2 * m) j,
      Nat.testBit_add_one (1 + 2 * m) j, h1, h2]
    norm_num

theorem mod_two_pow_succ_decomp (x k : ℕ) :
    (x % 2) ^^^ (2 * (x / 2 % 2 ^ k)) = x % 2 ^ (k + 1) := by
  have hm : x % 2 ^ (k + 1) = x % 2 + 2 * (x / 2 % 2 ^ k) := by
    rw [pow_succ, mul_comm (2 ^ k) 2, Nat.mod_mul]
  rw [hm]
  rcases Nat.mod_two_eq_zero_or_one x with h | h <;> rw [h]
  · rw [Nat.zero_xor, Nat.zero_add]
  · exact one_xor_two_mul _

theorem lmApplyAux_matOf :
    ∀ (k : ℕ) {f : ℕ → ℕ}, (∀ a b, f (a ^^^ b) = f a ^^^ f b) →
      ∀ x : ℕ, lmApplyAux (matOf f k) x = f (x % 2 ^ k) := by
  intro k
  induction k with
  | zero =>
    intro f hf x
    simp [matOf, lmApplyAux, Nat.mod_one, linear_zero hf]
  | succ k ih =>
    intro f hf x
    rw [matOf_succ]
    have hg : ∀ a b, (fun z => f (2 * z)) (a ^^^ b) =
        (fun z => f (2 * z)) a ^^^ (fun z => f (2 * z)) b := by
      intro a b
      simp only
      rw [two_mul_xor_distrib, hf]
    simp only [lmApplyAux]
    rw [ih hg (x / 2)]
    show (if x % 2 = 1 then f 1 else 0) ^^^ f (2 * (x / 2 % 2 ^ k)) = f (x % 2 ^ (k + 1))
    have hhead : (if x % 2 = 1 then f 1 else 0) = f (x % 2) := by
      rcases Nat.mod_two_eq_zero_or_one x with h | h <;> simp [h, linear_zero hf]
    rw [hhead, ← hf, mod_two_pow_succ_decomp]

theorem lmComp_matOf {f g : ℕ → ℕ}
    (hf : ∀ a b, f (a ^^^ b) = f a ^^^ f b)
    (hgb : ∀ x, x < 2 ^ 32 → g x < 2 ^ 32) :
    lmComp (matOf f 32) (matOf g 32) = matOf (fun x => f (g x)) 32 := by
  unfold lmComp matOf
  rw [List.map_map]
  apply List.map_congr_left
  intro i hi
  simp only [Function.comp_apply]
  rw [show List.map (fun i => f (2 ^ i)) (List.range 32) = matOf f 32 from rfl,
    lmApplyAux_matOf 32 hf (g (2 ^ i))]
  congr 1
  apply Nat.mod_eq_of_lt
  apply hgb
  exact Nat.pow_lt_pow_right (by norm_num) (List.mem_range.mp hi)

theorem lmId_eq_matOf : lmId = matOf id 32 := rfl

theorem lmPowAux_matOf {f : ℕ → ℕ}
    (hf : ∀ a b, f (a ^^^ b) = f a ^^^ f b)
    (hb : ∀ x, x < 2 ^ 32 → f x < 2 ^ 32) :
    ∀ (fuel n : ℕ), n < 2 ^ fuel → lmPowAux (matOf f 32) fuel n = matOf f^[n] 32 := by
  intro fuel
  induction fuel with
  | zero =>
    intro n hn
    interval_cases n
    simp [lmPowAux, lmId_eq_matOf, Function.iterate_zero]
  | succ fuel ih =>
    intro n hn
    by_cases h0 : n = 0
    · subst h0
      simp [lmPowAux, lmId_eq_matOf, Function.iterate_zero]
    · have hdiv : n / 2 < 2 ^ fuel := by
        have h2 : (2 : ℕ) ^ (fuel + 1) = 2 * 2 ^ fuel := by ring
        rw [h2] at hn
        omega
      have hhalf := ih (n / 2) hdiv
      have hlin2 := iterate_linear hf (n / 2)
      have hb2 := iterate_lt hb (n / 2)
      have hcomp : lmComp (matOf f^[n / 2] 32) (matOf f^[n / 2] 32) =
          matOf f^[n / 2 + n / 2] 32 := by
        rw [lmComp_matOf hlin2 hb2]
        congr 1
        funext x
        rw [← Function.iterate_add_apply]
      simp only [lmPowAux, h0, if_false]
      rw [hhalf, hcomp]
      rcases Nat.mod_two_eq_zero_or_one n with hm | hm
      · rw [if_neg (by omega : ¬ n % 2 = 1)]
        have he : n / 2 + n / 2 = n := by omega
        rw [he]
      · rw [if_pos hm]
        rw [lmComp_matOf (iterate_linear hf (n / 2 + n / 2)) hb]
        have hstep : (fun x => f^[n / 2 + n / 2] (f x)) = f^[n / 2 + n / 2 + 1] := by
          funext x
          rw [Function.iterate_succ_apply]
        rw [hstep]
        have he : n / 2 + n / 2 + 1 = n := by omega
        rw [he]

theorem xsStep_iterate_matrix (n x : ℕ) (hx : x < 2 ^ 32) (hn : n < 2 ^ 64) :
    xsStep^[n] x = lmApplyAux (lmPow xsMat n) x := by
  rw [lmPow, xsMat, lmPowAux_matOf xsStep_linear (fun y _ => xsStep_lt y) 64 n hn,
    lmApplyAux_matOf 32 (iterate_linear xsStep_linear n), Nat.mod_eq_of_lt hx]

/-! ## The xorshift(13,17,5) step is a single cycle on the nonzero 32-bit words

`2^32 - 1 = 4294967295 = 3 · 5 · 17 · 257 · 65537` (five Fermat primes).
The matrix power computations below show that the xorshift matrix has order
`2^32 - 1` and that the orbit of `1` does not close at any maximal proper
divisor of that order, so the orbit of `1` is all of the nonzero words. -/

set_option maxRecDepth 10000

theorem xsMat_pow_m : lmPow xsMat 4294967295 = lmId := by decide

theorem xsMat_pow_m3 : lmApplyAux (lmPow xsMat 1431655765) 1 ≠ 1 := by decide

theorem xsMat_pow_m5 : lmApplyAux (lmPow xsMat 858993459) 1 ≠ 1 := by decide

theorem xsMat_pow_m17 : lmApplyAux (lmPow xsMat 252645135) 1 ≠ 1 := by decide

theorem xsMat_pow_m257 : lmApplyAux (lmPow xsMat 16711935) 1 ≠ 1 := by decide

theorem xsMat_pow_m65537 : lmApplyAux (lmPow xsMat 65535) 1 ≠ 1 := by decide

theorem lmApplyAux_lmId (x : ℕ) (hx : x < 2 ^ 32) : lmApplyAux lmId x = x := by
  have hid : ∀ a b : ℕ, id (a ^^^ b) = id a ^^^ id b := fun _ _ => rfl
  rw [lmId_eq_matOf, lmApplyAux_matOf 32 hid x]
  exact Nat.mod_eq_of_lt hx

theorem xsStep_iterate_m (x : ℕ) (hx : x < 2 ^ 32) : xsStep^[4294967295] x = x := by
  rw [xsStep_iterate_matrix _ _ hx (by norm_num), xsMat_pow_m, lmApplyAux_lmId x hx]

theorem xsStep_orbit_ne3 : xsStep^[1431655765] 1 ≠ 1 := by
  rw [xsStep_iterate_matrix _ 1 (by norm_num) (by norm_num)]
  exact xsMat_pow_m3

theorem xsStep_orbit_ne5 : xsStep^[858993459] 1 ≠ 1 := by
  rw [xsStep_iterate_matrix _ 1 (by norm_num) (by norm_num)]
  exact xsMat_pow_m5

theorem xsStep_orbit_ne17 : xsStep^[252645135] 1 ≠ 1 := by
  rw [xsStep_iterate_matrix _ 1 (by norm_num) (by norm_num)]
  exact xsMat_pow_m17

theorem xsStep_orbit_ne257 : xsStep^[16711935] 1 ≠ 1 := by
  rw [xsStep_iterate_matrix _ 1 (by norm_num) (by norm_num)]
  exact xsMat_pow_m257

theorem xsStep_orbit_ne65537 : xsStep^[65535] 1 ≠ 1 := by
  rw [xsStep_iterate_matrix _ 1 (by norm_num) (by norm_num)]
  exact xsMat_pow_m65537

theorem xsStep_iterate_mul_one {a : ℕ} (ha : xsStep^[a] 1 = 1) :
    ∀ q, xsStep^[a * q] 1 = 1 := by
  intro q
  induction q with
  | zero => simp
  | succ q ih =>
    have : a * (q + 1) = a * q + a := by ring
    rw [this, Function.iterate_add_apply, ha, ih]

theorem xsStep_iterate_gcd :
    ∀ (a b : ℕ), xsStep^[a] 1 = 1 → xsStep^[b] 1 = 1 → xsStep^[Nat.gcd a b] 1 = 1 := by
  intro a
  induction a using Nat.strong_induction_on with
  | _ a ih =>
    intro b ha hb
    rcases Nat.eq_zero_or_pos a with h0 | h0
    · subst h0
      rwa [Nat.gcd_zero_left]
    · have h1 : xsStep^[b % a] 1 = 1 := by
        have h2 : xsStep^[b % a + a * (b / a)] 1 = 1 := by
          rw [show b % a + a * (b / a) = b from Nat.mod_add_div b a]
          exact hb
        rw [Function.iterate_add_apply] at h2
        rwa [xsStep_iterate_mul_one ha (b / a)] at h2
      rw [Nat.gcd_rec a b]
      exact ih (b % a) (Nat.mod_lt b h0) a h1 ha

theorem prime_factor_m {p : ℕ} (hp : p.Prime) (hdvd : p ∣ 4294967295) :
    p = 3 ∨ p = 5 ∨ p = 17 ∨ p = 257 ∨ p = 65537 := by
  have hfac : (4294967295 : ℕ) = 3 * (5 * (17 * (257 * 65537))) := by norm_num
  rw [hfac] at hdvd
  have h3 : Nat.Prime 3 := by norm_num
  have h5 : Nat.Prime 5 := by norm_num
  have h17 : Nat.Prime 17 := by norm_num
  have h257 : Nat.Prime 257 := by norm_num
  have h65537 : Nat.Prime 65537 := by norm_num
  rcases (Nat.Prime.dvd_mul hp).mp hdvd with h | h
  · exact Or.inl ((Nat.prime_dvd_prime_iff_eq hp h3).mp h)
  rcases (Nat.Prime.dvd_mul hp).mp h with h | h
  · exact Or.inr (Or.inl ((Nat.prime_dvd_prime_iff_eq hp h5).mp h))
  rcases (Nat.Prime.dvd_mul hp).mp h with h | h
  · exact Or.inr (Or.inr (Or.inl ((Nat.prime_dvd_prime_iff_eq hp h17).mp h)))
  rcases (Nat.Prime.dvd_mul hp).mp h with h | h
  · exact Or.inr (Or.inr (Or.inr (Or.inl ((Nat.prime_dvd_prime_iff_eq hp h257).mp h))))
  · exact Or.inr (Or.inr (Or.inr (Or.inr ((Nat.prime_dvd_prime_iff_eq hp h65537).mp h))))

theorem xsStep_orbit_min {n : ℕ} (h0 : 0 < n) (hm : n < 4294967295) :
    xsStep^[n] 1 ≠ 1 := by
  intro hn
  have hM : xsStep^[4294967295] 1 = 1 := xsStep_iterate_m 1 (by norm_num)
  set g := Nat.gcd n 4294967295 with hg
  have hgone : xsStep^[g] 1 = 1 := xsStep_iterate_gcd n 4294967295 hn hM
  have hgdvd : g ∣ 4294967295 := Nat.gcd_dvd_right n 4294967295
  have hgn : g ≤ n := Nat.le_of_dvd h0 (Nat.gcd_dvd_left n 4294967295)
  have hglt : g < 4294967295 := lt_of_le_of_lt hgn hm
  have hgpos : 0 < g := Nat.gcd_pos_of_pos_left _ h0
  obtain ⟨t, ht⟩ := hgdvd
  have ht1 : t ≠ 1 := by
    intro h1
    rw [h1, mul_one] at ht
    omega
  obtain ⟨p, hp, hpt⟩ := Nat.exists_prime_and_dvd ht1
  have hpm : p ∣ 4294967295 := ht ▸ Dvd.dvd.mul_left hpt g
  obtain ⟨u, hu⟩ := hpt
  have hdiv : 4294967295 / p = g * u := by
    rw [ht, hu]
    have hppos : 0 < p := hp.pos
    rw [show g * (p * u) = g * u * p by ring]
    exact Nat.mul_div_cancel _ hppos
  have hmain : xsStep^[4294967295 / p] 1 = 1 := by
    rw [hdiv]
    exact xsStep_iterate_mul_one hgone u
  rcases prime_factor_m hp hpm with h | h | h | h | h <;> rw [h] at hmain
  · rw [show (4294967295 : ℕ) / 3 = 1431655765 from by norm_num] at hmain
    exact xsStep_orbit_ne3 hmain
  · rw [show (4294967295 : ℕ) / 5 = 858993459 from by norm_num] at hmain
    exact xsStep_orbit_ne5 hmain
  · rw [show (4294967295 : ℕ) / 17 = 252645135 from by norm_num] at hmain
    exact xsStep_orbit_ne17 hmain
  · rw [show (4294967295 : ℕ) / 257 = 16711935 from by norm_num] at hmain
    exact xsStep_orbit_ne257 hmain
  · rw [show (4294967295 : ℕ) / 65537 = 65535 from by norm_num] at hmain
    exact xsStep_orbit_ne65537 hmain

theorem xsStep_iterate_zero_fix : ∀ k, xsStep^[k] 0 = 0 := by
  intro k
  induction k with
  | zero => rfl
  | succ k ih =>
    rw [Function.iterate_succ_apply]
    have h0 : xsStep 0 = 0 := by decide
    rw [h0, ih]

theorem xsStep_inj {x y : ℕ} (hx : x < 2 ^ 32) (hy : y < 2 ^ 32)
    (h : xsStep x = xsStep y) : x = y := by
  have hsplit : (4294967295 : ℕ) = 4294967294 + 1 := by norm_num
  calc x = xsStep^[4294967295] x := (xsStep_iterate_m x hx).symm
    _ = xsStep^[4294967294] (xsStep x) := by
          rw [hsplit]; exact Function.iterate_succ_apply _ _ _
    _ = xsStep^[4294967294] (xsStep y) := by rw [h]
    _ = xsStep^[4294967295] y := by
          rw [hsplit]; exact (Function.iterate_succ_apply _ _ _).symm
    _ = y := xsStep_iterate_m y hy

theorem xsStep_pos {x : ℕ} (hx0 : 0 < x) (hx : x < 2 ^ 32) : 0 < xsStep x := by
  rcases Nat.eq_zero_or_pos (xsStep x) with h0 | h
  · exfalso
    have hz : xsStep x = xsStep 0 := by rw [h0]; symm; decide
    have := xsStep_inj hx (by norm_num) hz
    omega
  · exact h

theorem xsStep_iterate_pos {x : ℕ} (hx0 : 0 < x) (hx : x < 2 ^ 32) :
    ∀ n, 0 < xsStep^[n] x ∧ xsStep^[n] x < 2 ^ 32 := by
  intro n
  induction n with
  | zero => simpa using ⟨hx0, hx⟩
  | succ n ih =>
    rw [Function.iterate_succ_apply']
    exact ⟨xsStep_pos ih.1 ih.2, xsStep_lt _⟩

theorem xsStep_iterate_inj :
    ∀ (n : ℕ) {x y : ℕ}, x < 2 ^ 32 → y < 2 ^ 32 →
      xsStep^[n] x = xsStep^[n] y → x = y := by
  intro n
  induction n with
  | zero =>
    intro x y _ _ h
    simpa using h
  | succ n ih =>
    intro x y hx hy h
    rw [Function.iterate_succ_apply, Function.iterate_succ_apply] at h
    exact xsStep_inj hx hy (ih (xsStep_lt x) (xsStep_lt y) h)

theorem xsStep_orbit_surj {v : ℕ} (hv0 : 0 < v) (hv : v < 2 ^ 32) :
    ∃ i, i < 4294967295 ∧ xsStep^[i] 1 = v := by
  classical
  have hone : (1 : ℕ) < 2 ^ 32 := by norm_num
  have hmem : ∀ i ∈ Finset.range 4294967295,
      xsStep^[i] 1 ∈ (Finset.range (2 ^ 32)).erase 0 := by
    intro i hi
    refine Finset.mem_erase.mpr ⟨?_, Finset.mem_range.mpr ((xsStep_iterate_pos one_pos hone i).2)⟩
    have := (xsStep_iterate_pos one_pos hone i).1
    omega
  have hinj : Set.InjOn (fun i => xsStep^[i] 1) (Finset.range 4294967295) := by
    intro i hi j hj hij
    simp only [Finset.coe_range, Set.mem_Iio] at hi hj
    by_contra hne
    rcases Nat.lt_or_ge i j with hlt | hge
    · have hj' : xsStep^[i + (j - i)] 1 = xsStep^[i] 1 := by
        rw [show i + (j - i) = j by omega]
        exact hij.symm
      rw [Function.iterate_add_apply] at hj'
      have h1 : xsStep^[j - i] 1 = 1 :=
        xsStep_iterate_inj i ((xsStep_iterate_pos one_pos hone _).2) hone hj'
      exact xsStep_orbit_min (by omega) (by omega) h1
    · have hlt : j < i := by omega
      have hi' : xsStep^[j + (i - j)] 1 = xsStep^[j] 1 := by
        rw [show j + (i - j) = i by omega]
        exact hij
      rw [Function.iterate_add_apply] at hi'
      have h1 : xsStep^[i - j] 1 = 1 :=
        xsStep_iterate_inj j ((xsStep_iterate_pos one_pos hone _).2) hone hi'
      exact xsStep_orbit_min (by omega) (by omega) h1
  have hcard : ((Finset.range (2 ^ 32)).erase 0).card = 4294967295 := by
    rw [Finset.card_erase_of_mem (Finset.mem_range.mpr (by norm_num)), Finset.card_range]
    norm_num
  have himage : (Finset.range 4294967295).image (fun i => xsStep^[i] 1) =
      (Finset.range (2 ^ 32)).erase 0 := by
    apply Finset.eq_of_subset_of_card_le
    · intro x hx
      obtain ⟨i, hi, rfl⟩ := Finset.mem_image.mp hx
      exact hmem i hi
    · rw [Finset.card_image_of_injOn hinj, Finset.card_range, hcard]
  have hv' : v ∈ (Finset.range (2 ^ 32)).erase 0 :=
    Finset.mem_erase.mpr ⟨by omega, Finset.mem_range.mpr hv⟩
  rw [← himage] at hv'
  obtain ⟨i, hi, hiv⟩ := Finset.mem_image.mp hv'
  exact ⟨i, Finset.mem_range.mp hi, hiv⟩

theorem xsStep_reach {s v : ℕ} (hs0 : 0 < s) (hs : s < 2 ^ 32)
    (hv0 : 0 < v) (hv : v < 2 ^ 32) :
    ∃ n, 1 ≤ n ∧ n ≤ 4294967295 ∧ xsStep^[n] s = v := by
  obtain ⟨a, ha, has⟩ := xsStep_orbit_surj hs0 hs
  obtain ⟨b, hb, hbv⟩ := xsStep_orbit_surj hv0 hv
  rcases Nat.lt_or_ge a b with hab | hab
  · refine ⟨b - a, by omega, by omega, ?_⟩
    rw [← has, ← Function.iterate_add_apply, show b - a + a = b by omega, hbv]
  · refine ⟨b + 4294967295 - a, by omega, by omega, ?_⟩
    rw [← has, ← Function.iterate_add_apply, show b + 4294967295 - a + a = b + 4294967295 by omega]
    rw [Function.iterate_add_apply, xsStep_iterate_m 1 (by norm_num), hbv]

theorem residue_reachable {K r : ℕ} (hK1 : 1 ≤ K) (hK : K < 2 ^ 32) (hr : r < K) :
    ∃ v, 0 < v ∧ v < 2 ^ 32 ∧ v % K = r := by
  rcases Nat.eq_zero_or_pos r with h0 | h0
  · exact ⟨K, by omega, hK, by simp [h0, Nat.mod_self]⟩
  · exact ⟨r, h0, by omega, Nat.mod_eq_of_lt hr⟩

theorem exists_missing_residue {K : ℕ} (chosen : List ℕ) (hnd : chosen.Nodup)
    (hlen : chosen.length < K) :
    ∃ r, r < K ∧ r ∉ chosen := by
  by_contra h
  push_neg at h
  have hsubset : Finset.range K ⊆ chosen.toFinset := by
    intro r hr
    exact List.mem_toFinset.mpr (h r (Finset.mem_range.mp hr))
  have hcard := Finset.card_le_card hsubset
  rw [Finset.card_range, List.toFinset_card_of_nodup hnd] at hcard
  omega

theorem draw_hit {K : ℕ} (chosen : List ℕ) (s : ℕ) (hs0 : 0 < s) (hs : s < 2 ^ 32)
    (hK1 : 1 ≤ K) (hK : K < 2 ^ 32) (hnd : chosen.Nodup)
    (hlen : chosen.length < K) :
    ∃ n, 1 ≤ n ∧ n ≤ 4294967295 ∧ (xsStep^[n] s) % K ∉ chosen := by
  obtain ⟨r, hr, hrn⟩ := exists_missing_residue chosen hnd hlen
  obtain ⟨v, hv0, hv, hvr⟩ := residue_reachable hK1 hK hr
  obtain ⟨n, hn1, hnm, hns⟩ := xsStep_reach hs0 hs hv0 hv
  refine ⟨n, hn1, hnm, ?_⟩
  rw [hns, hvr]
  exact hrn

theorem drawFuel_walk {K d : ℕ} :
    ∀ (n0 : ℕ), 1 ≤ n0 → ∀ (fuel s : ℕ) (chosen : List ℕ),
      n0 ≤ fuel → chosen.length < d →
      (∀ j, 1 ≤ j → j < n0 → (xsStep^[j] s) % K ∈ chosen) →
      (xsStep^[n0] s) % K ∉ chosen →
      drawFuel K d fuel s chosen =
        drawFuel K d (fuel - n0) (xsStep^[n0] s) (((xsStep^[n0] s) % K) :: chosen) := by
  intro n0
  induction n0 with
  | zero => omega
  | succ n0 ih =>
    intro _ fuel s chosen hfuel hlen hprev hnew
    obtain ⟨f, rfl⟩ : ∃ f, fuel = f + 1 := ⟨fuel - 1, by omega⟩
    rcases Nat.eq_zero_or_pos n0 with hz | hpos
    · subst hz
      simp only [drawFuel]
      rw [if_neg (by omega)]
      have h1 : xsStep s = xsStep^[1] s := by rw [Function.iterate_one]
      rw [show f + 1 - 1 = f by omega]
      rw [← h1] at hnew
      rw [List.insert_of_not_mem hnew, h1]
    · simp only [drawFuel]
      rw [if_neg (by omega)]
      have hmem : (xsStep s) % K ∈ chosen := by
        have h := hprev 1 le_rfl (by omega)
        rwa [Function.iterate_one] at h
      rw [List.insert_of_mem hmem]
      have hshift : ∀ j, xsStep^[j] (xsStep s) = xsStep^[j + 1] s := by
        intro j
        exact (Function.iterate_succ_apply xsStep j s).symm
      have happ := ih hpos f (xsStep s) chosen (by omega) hlen
        (fun j hj1 hjn => by rw [hshift]; exact hprev (j + 1) (by omega) (by omega))
        (by rw [hshift]; exact hnew)
      rw [happ, hshift, show f - n0 = f + 1 - (n0 + 1) by omega]

theorem drawFuel_mono {K d : ℕ} :
    ∀ (fuel fuel' s : ℕ) (chosen : List ℕ) (r : List ℕ × ℕ), fuel ≤ fuel' →
      drawFuel K d fuel s chosen = some r → drawFuel K d fuel' s chosen = some r := by
  intro fuel
  induction fuel with
  | zero =>
    intro fuel' s chosen r _ h
    simp only [drawFuel] at h
    rcases le_or_lt d chosen.length with hc | hc
    · rw [if_pos hc] at h
      cases fuel' with
      | zero => simpa [drawFuel, if_pos hc] using h
      | succ f => simpa [drawFuel, if_pos hc] using h
    · rw [if_neg (by omega)] at h
      cases h
  | succ fuel ih =>
    intro fuel' s chosen r hle h
    obtain ⟨f', rfl⟩ : ∃ f', fuel' = f' + 1 := ⟨fuel' - 1, by omega⟩
    simp only [drawFuel] at h ⊢
    rcases le_or_lt d chosen.length with hc | hc
    · rwa [if_pos hc] at h ⊢
    · rw [if_neg (by omega)] at h ⊢
      exact ih f' _ _ r (by omega) h

theorem drawFuel_term {K d : ℕ} (hK1 : 1 ≤ K) (hK : K < 2 ^ 32) (hd : d ≤ K) :
    ∀ (b s : ℕ) (chosen : List ℕ), 0 < s → s < 2 ^ 32 → chosen.Nodup →
      (∀ c ∈ chosen, c < K) → d ≤ chosen.length + b →
      (drawFuel K d (b * 4294967295) s chosen).isSome := by
  intro b
  induction b with
  | zero =>
    intro s chosen _ _ _ _ hlen
    simp only [Nat.zero_mul, drawFuel]
    rw [if_pos (by omega)]
    rfl
  | succ b ih =>
    intro s chosen hs0 hs hnd hsub hlen
    rcases le_or_lt d chosen.length with hdone | hneed
    · obtain ⟨f, hf⟩ : ∃ f, (b + 1) * 4294967295 = f + 1 := ⟨(b + 1) * 4294967295 - 1, by
        have : 0 < (b + 1) * 4294967295 := by positivity
        omega⟩
      rw [hf]
      simp only [drawFuel]
      rw [if_pos hdone]
      rfl
    · have hlenK : chosen.length < K := by omega
      obtain ⟨n, hn1, hnm, hmiss⟩ := draw_hit chosen s hs0 hs hK1 hK hnd hlenK
      classical
      have hex : ∃ m, 1 ≤ m ∧ (xsStep^[m] s) % K ∉ chosen := ⟨n, hn1, hmiss⟩
      set n0 := Nat.find hex with hn0def
      have hP0 := Nat.find_spec hex
      have hn0le : n0 ≤ n := Nat.find_min' hex ⟨hn1, hmiss⟩
      have hn0m : n0 ≤ 4294967295 := le_trans hn0le hnm
      have hfuelbig : 4294967295 ≤ (b + 1) * 4294967295 :=
        Nat.le_mul_of_pos_left 4294967295 (by omega)
      have hprev : ∀ j, 1 ≤ j → j < n0 → (xsStep^[j] s) % K ∈ chosen := by
        intro j hj1 hj
        by_contra hmem
        exact Nat.find_min hex hj ⟨hj1, hmem⟩
      rw [drawFuel_walk n0 hP0.1 _ s chosen (by omega) hneed hprev hP0.2]
      have hstate := xsStep_iterate_pos hs0 hs n0
      have hnew_nd : (((xsStep^[n0] s) % K) :: chosen).Nodup :=
        List.nodup_cons.mpr ⟨hP0.2, hnd⟩
      have hnew_sub : ∀ c ∈ ((xsStep^[n0] s) % K) :: chosen, c < K := by
        intro c hc
        rcases List.mem_cons.mp hc with rfl | hc
        · exact Nat.mod_lt _ (by omega)
        · exact hsub c hc
      have happly := ih (xsStep^[n0] s) (((xsStep^[n0] s) % K) :: chosen)
        hstate.1 hstate.2 hnew_nd hnew_sub (by simp only [List.length_cons]; omega)
      obtain ⟨r, hr⟩ := Option.isSome_iff_exists.mp happly
      have hm := drawFuel_mono (b * 4294967295) ((b + 1) * 4294967295 - n0) _ _ r
        (by omega) hr
      rw [hm]
      rfl

theorem drawFuel_result {K d : ℕ} (hK : 0 < K) :
    ∀ (fuel s : ℕ) (chosen : List ℕ), chosen.Nodup → (∀ c ∈ chosen, c < K) →
      chosen.length ≤ d →
      ∀ ch' s', drawFuel K d fuel s chosen = some (ch', s') →
        ch'.Nodup ∧ (∀ c ∈ ch', c < K) ∧ ch'.length = d := by
  intro fuel
  induction fuel with
  | zero =>
    intro s chosen hnd hsub hlen ch' s' h
    simp only [drawFuel] at h
    rcases le_or_lt d chosen.length with hc | hc
    · rw [if_pos hc] at h
      obtain ⟨rfl, rfl⟩ : chosen = ch' ∧ s = s' := by
        injection h with h1
        injection h1 with h2 h3
        exact ⟨h2, h3⟩
      exact ⟨hnd, hsub, by omega⟩
    · rw [if_neg (by omega)] at h
      cases h
  | succ fuel ih =>
    intro s chosen hnd hsub hlen ch' s' h
    simp only [drawFuel] at h
    rcases le_or_lt d chosen.length with hc | hc
    · rw [if_pos hc] at h
      obtain ⟨rfl, rfl⟩ : chosen = ch' ∧ s = s' := by
        injection h with h1
        injection h1 with h2 h3
        exact ⟨h2, h3⟩
      exact ⟨hnd, hsub, by omega⟩
    · rw [if_neg (by omega)] at h
      by_cases hm : (xsStep s) % K ∈ chosen
      · rw [List.insert_of_mem hm] at h
        exact ih _ chosen hnd hsub (by omega) ch' s' h
      · rw [List.insert_of_not_mem hm] at h
        refine ih _ _ (List.nodup_cons.mpr ⟨hm, hnd⟩) ?_ (by simp only [List.length_cons]; omega)
          ch' s' h
        intro c hc
        rcases List.mem_cons.mp hc with rfl | hc
        · exact Nat.mod_lt _ hK
        · exact hsub c hc

theorem xsInit_pos_lt {seed : ℕ} (h : seed < 2 ^ 32) :
    0 < xsInit seed ∧ xsInit seed < 2 ^ 32 := by
  unfold xsInit
  rcases Nat.eq_zero_or_pos seed with h0 | h0
  · subst h0
    norm_num
  · rw [if_neg (by omega), Nat.mod_eq_of_lt h]
    exact ⟨h0, h⟩

theorem lt_seed_lt (fecSeed symId K : ℕ) : lt_seed fecSeed symId K < 2 ^ 32 :=
  Nat.mod_lt _ (by norm_num)

theorem lt_indices_spec (K symId fecSeed : ℕ) (cdf : List ℚ) (hK1 : 1 ≤ K) (hK : K < 2 ^ 32) :
    ∃ idxs d, lt_indices K symId fecSeed cdf = some (idxs, d) ∧
      1 ≤ d ∧ d ≤ K ∧ idxs.Nodup ∧ (∀ j ∈ idxs, j < K) ∧ idxs.length = d := by
  have hs0 := xsInit_pos_lt (lt_seed_lt fecSeed symId K)
  set s0 := xsInit (lt_seed fecSeed symId K) with hs0def
  set dg := sample_degree cdf s0 with hdg
  set d := max 1 (min K dg.1) with hd
  have hd1 : 1 ≤ d := le_max_left _ _
  have hdK : d ≤ K := by
    rw [hd]
    have := min_le_left K dg.1
    omega
  have hs1 : 0 < dg.2 ∧ dg.2 < 2 ^ 32 := by
    have : dg.2 = xsStep s0 := rfl
    rw [this]
    exact ⟨xsStep_pos hs0.1 hs0.2, xsStep_lt _⟩
  have hterm := drawFuel_term hK1 hK hdK d dg.2 [] hs1.1 hs1.2 List.nodup_nil
    (by intro c hc; cases hc) (by simp)
  obtain ⟨⟨ch, s'⟩, hch⟩ := Option.isSome_iff_exists.mp hterm
  have hmono : drawFuel K d (ltFuel K) dg.2 [] = some (ch, s') := by
    apply drawFuel_mono (d * 4294967295) (ltFuel K) _ _ _ _ hch
    have : ltFuel K = (K + 1) * 2 ^ 32 := rfl
    rw [this]
    have h1 : d * 4294967295 ≤ K * 4294967295 := Nat.mul_le_mul_right _ hdK
    have h2 : K * 4294967295 ≤ (K + 1) * 2 ^ 32 := by
      have : (2 : ℕ) ^ 32 = 4294967296 := by norm_num
      rw [this]
      nlinarith
    omega
  have hres := drawFuel_result (by omega) (ltFuel K) dg.2 [] List.nodup_nil
    (by intro c hc; cases hc) (by simp) ch s' hmono
  refine ⟨ch.insertionSort (· ≤ ·), d, ?_, hd1, hdK, ?_, ?_, ?_⟩
  · rw [lt_indices]
    simp only [← hs0def, ← hdg, ← hd, hmono]
    rfl
  · exact (List.perm_insertionSort _ ch).nodup_iff.mpr hres.1
  · intro j hj
    exact hres.2.1 j ((List.perm_insertionSort _ ch).mem_iff.mp hj)
  · rw [(List.perm_insertionSort _ ch).length_eq]
    exact hres.2.2

theorem bytesXor_length (a b : List ℕ) : (bytesXor a b).length = min a.length b.length :=
  List.length_zipWith _ _ _

theorem bytesXor_getD (a b : List ℕ) (pos : ℕ) (ha : pos < a.length) (hb : pos < b.length) :
    (bytesXor a b).getD pos 0 = a.getD pos 0 ^^^ b.getD pos 0 := by
  unfold bytesXor
  rw [List.getD_eq_getElem _ _ (by rw [List.length_zipWith]; omega),
    List.getD_eq_getElem _ _ ha, List.getD_eq_getElem _ _ hb]
  exact List.getElem_zipWith

theorem chunks_getD_length {chunks : List (List ℕ)} {cs : ℕ}
    (hall : ∀ c ∈ chunks, c.length = cs) {j : ℕ} (hj : j < chunks.length) :
    (chunks.getD j []).length = cs := by
  rw [List.getD_eq_getElem _ _ hj]
  exact hall _ (List.getElem_mem _)

theorem foldl_bytesXor_spec (chunks : List (List ℕ)) (cs : ℕ)
    (hall : ∀ c ∈ chunks, c.length = cs) :
    ∀ (l : List ℕ) (acc : List ℕ), acc.length = cs → (∀ j ∈ l, j < chunks.length) →
      (l.foldl (fun out j => bytesXor out (chunks.getD j [])) acc).length = cs ∧
      ∀ pos, pos < cs →
        (l.foldl (fun out j => bytesXor out (chunks.getD j [])) acc).getD pos 0 =
          acc.getD pos 0 ^^^ (l.map fun j => (chunks.getD j []).getD pos 0).foldr (· ^^^ ·) 0 := by
  intro l
  induction l with
  | nil =>
    intro acc hacc _
    refine ⟨hacc, fun pos _ => ?_⟩
    simp
  | cons j l ih =>
    intro acc hacc hmem
    have hj : j < chunks.length := hmem j (List.mem_cons_self _ _)
    have hcj : (chunks.getD j []).length = cs := chunks_getD_length hall hj
    have hacc' : (bytesXor acc (chunks.getD j [])).length = cs := by
      rw [bytesXor_length, hacc, hcj]
      omega
    obtain ⟨hlen, hget⟩ := ih (bytesXor acc (chunks.getD j [])) hacc'
      (fun i hi => hmem i (List.mem_cons_of_mem _ hi))
    refine ⟨hlen, fun pos hpos => ?_⟩
    simp only [List.foldl_cons, List.map_cons, List.foldr_cons]
    rw [hget pos hpos, bytesXor_getD acc _ pos (by omega) (by omega), Nat.xor_assoc]

theorem lt_encode_symbol_spec (chunks : List (List ℕ)) (symId fecSeed : ℕ) (cdf : List ℚ)
    (cs : ℕ) (hall : ∀ c ∈ chunks, c.length = cs)
    (hK1 : 1 ≤ chunks.length) (hK : chunks.length < 2 ^ 32) :
    ∃ p d idxs, lt_encode_symbol chunks symId fecSeed cdf = some (p, d) ∧
      lt_indices chunks.length symId fecSeed cdf = some (idxs, d) ∧
      1 ≤ d ∧ d ≤ chunks.length ∧ idxs.Nodup ∧ (∀ j ∈ idxs, j < chunks.length) ∧
      idxs.length = d ∧ p.length = cs ∧
      ∀ pos, pos < cs → p.getD pos 0 =
        (idxs.map fun j => (chunks.getD j []).getD pos 0).foldr (· ^^^ ·) 0 := by
  obtain ⟨idxs, d, hidx, hd1, hdK, hnd, hsub, hlen⟩ :=
    lt_indices_spec chunks.length symId fecSeed cdf hK1 hK
  obtain ⟨i0, rest, rfl⟩ : ∃ i0 rest, idxs = i0 :: rest := by
    cases idxs with
    | nil => simp at hlen; omega
    | cons i0 rest => exact ⟨i0, rest, rfl⟩
  have hi0 : i0 < chunks.length := hsub i0 (List.mem_cons_self _ _)
  have hi0len : (chunks.getD i0 []).length = cs := chunks_getD_length hall hi0
  obtain ⟨hplen, hpget⟩ := foldl_bytesXor_spec chunks cs hall rest (chunks.getD i0 []) hi0len
    (fun j hj => hsub j (List.mem_cons_of_mem _ hj))
  refine ⟨_, d, i0 :: rest, ?_, hidx, hd1, hdK, hnd, hsub, hlen, hplen, ?_⟩
  · rw [lt_encode_symbol, hidx]
    rfl
  · intro pos hpos
    rw [hpget pos hpos]
    simp only [List.map_cons, List.foldr_cons]

/-! ## Chunker lemmas -/

theorem chunkRawAux_fuel {csz : ℕ} (hcsz : 1 ≤ csz) :
    ∀ (fuel fuel' : ℕ) (data : List ℕ), data.length ≤ fuel → data.length ≤ fuel' →
      chunkRawAux csz fuel data = chunkRawAux csz fuel' data := by
  intro fuel
  induction fuel with
  | zero =>
    intro fuel' data hf hf'
    have : data = [] := List.eq_nil_of_length_eq_zero (by omega)
    subst this
    cases fuel' <;> rfl
  | succ fuel ih =>
    intro fuel' data hf hf'
    cases data with
    | nil => cases fuel' <;> rfl
    | cons a l =>
      obtain ⟨f', rfl⟩ : ∃ f', fuel' = f' + 1 := ⟨fuel' - 1, by simp at hf'; omega⟩
      simp only [chunkRawAux]
      congr 1
      apply ih
      · simp only [List.length_drop, List.length_cons]
        simp only [List.length_cons] at hf
        omega
      · simp only [List.length_drop, List.length_cons]
        simp only [List.length_cons] at hf'
        omega

theorem chunkRaw_nil (csz : ℕ) : chunkRaw csz [] = [] := by
  unfold chunkRaw
  split <;> rfl

theorem chunkRaw_cons {csz : ℕ} (hcsz : 1 ≤ csz) (data : List ℕ) (hne : data ≠ []) :
    chunkRaw csz data = data.take csz :: chunkRaw csz (data.drop csz) := by
  unfold chunkRaw
  rw [if_neg (by omega), if_neg (by omega)]
  obtain ⟨a, l, rfl⟩ : ∃ a l, data = a :: l := by
    cases data with
    | nil => exact absurd rfl hne
    | cons a l => exact ⟨a, l, rfl⟩
  simp only [List.length_cons, chunkRawAux]
  have h1 : ((a :: l).drop csz).length ≤ l.length := by
    simp only [List.length_drop, List.length_cons]
    omega
  rw [chunkRawAux_fuel hcsz l.length ((a :: l).drop csz).length ((a :: l).drop csz) h1 le_rfl]

theorem chunkRaw_flatten {csz : ℕ} (hcsz : 1 ≤ csz) :
    ∀ (n : ℕ) (data : List ℕ), data.length ≤ n → (chunkRaw csz data).flatten = data := by
  intro n
  induction n with
  | zero =>
    intro data h
    have : data = [] := List.eq_nil_of_length_eq_zero (by omega)
    subst this
    rw [chunkRaw_nil]
    rfl
  | succ n ih =>
    intro data h
    by_cases hne : data = []
    · subst hne
      rw [chunkRaw_nil]
      rfl
    · rw [chunkRaw_cons hcsz data hne]
      have hlen : 1 ≤ data.length := by
        cases data with
        | nil => exact absurd rfl hne
        | cons a l => simp
      rw [List.flatten_cons, ih (data.drop csz) (by simp only [List.length_drop]; omega)]
      exact List.take_append_drop csz data

theorem chunkRaw_length {csz : ℕ} (hcsz : 1 ≤ csz) :
    ∀ (n : ℕ) (data : List ℕ), data.length ≤ n →
      (chunkRaw csz data).length = (data.length + csz - 1) / csz := by
  intro n
  induction n with
  | zero =>
    intro data h
    have : data = [] := List.eq_nil_of_length_eq_zero (by omega)
    subst this
    rw [chunkRaw_nil]
    simp only [List.length_nil]
    rw [Nat.div_eq_of_lt (by omega)]
  | succ n ih =>
    intro data h
    by_cases hne : data = []
    · subst hne
      rw [chunkRaw_nil]
      simp only [List.length_nil]
      rw [Nat.div_eq_of_lt (by omega)]
    · rw [chunkRaw_cons hcsz data hne]
      have hL1 : 1 ≤ data.length := by
        cases data with
        | nil => exact absurd rfl hne
        | cons a l => simp
      rw [List.length_cons, ih (data.drop csz) (by simp only [List.length_drop]; omega)]
      simp only [List.length_drop]
      rcases le_or_lt data.length csz with hle | hlt
      · rw [show data.length - csz = 0 by omega]
        rw [Nat.div_eq_of_lt (by omega : 0 + csz - 1 < csz)]
        have h1 : (data.length + csz - 1) / csz = 1 := Nat.div_eq_of_lt_le (by omega) (by omega)
        rw [h1]
      · have heq : data.length - csz + csz - 1 = data.length - 1 := by omega
        rw [heq]
        have heq2 : data.length + csz - 1 = (data.length - 1) + csz := by omega
        rw [heq2, Nat.add_div_right _ (by omega)]

theorem chunkRaw_struct {csz : ℕ} (hcsz : 1 ≤ csz) :
    ∀ (n : ℕ) (data : List ℕ), data.length ≤ n → data ≠ [] →
      ∃ pre last, chunkRaw csz data = pre ++ [last] ∧ (∀ c ∈ pre, c.length = csz) ∧
        1 ≤ last.length ∧ last.length ≤ csz := by
  intro n
  induction n with
  | zero =>
    intro data h hne
    exact absurd (List.eq_nil_of_length_eq_zero (by omega)) hne
  | succ n ih =>
    intro data h hne
    have hL1 : 1 ≤ data.length := by
      cases data with
      | nil => exact absurd rfl hne
      | cons a l => simp
    rw [chunkRaw_cons hcsz data hne]
    rcases le_or_lt data.length csz with hle | hlt
    · have hdrop : data.drop csz = [] := List.drop_eq_nil_of_le hle
      rw [hdrop, chunkRaw_nil]
      refine ⟨[], data.take csz, rfl, by simp, ?_, ?_⟩
      · rw [List.length_take]
        omega
      · rw [List.length_take]
        omega
    · have hdropne : data.drop csz ≠ [] := by
        intro hd
        have := congrArg List.length hd
        simp only [List.length_drop, List.length_nil] at this
        omega
      obtain ⟨pre, last, heq, hpre, hl1, hl2⟩ :=
        ih (data.drop csz) (by simp only [List.length_drop]; omega) hdropne
      refine ⟨data.take csz :: pre, last, by rw [heq]; rfl, ?_, hl1, hl2⟩
      intro c hc
      rcases List.mem_cons.mp hc with rfl | hc
      · rw [List.length_take]
        omega
      · exact hpre c hc

theorem maxLen_ge (chunks : List (List ℕ)) : ∀ c ∈ chunks, c.length ≤ maxLen chunks := by
  induction chunks with
  | nil => intro c hc; cases hc
  | cons a l ih =>
    intro c hc
    rcases List.mem_cons.mp hc with rfl | hc
    · unfold maxLen
      simp only [List.map_cons, List.foldr_cons]
      exact le_max_left _ _
    · unfold maxLen
      simp only [List.map_cons, List.foldr_cons]
      exact le_trans (ih c hc) (le_max_right _ _)

theorem flatten_length_le (chunks : List (List ℕ)) (cs : ℕ)
    (h : ∀ c ∈ chunks, c.length ≤ cs) :
    chunks.flatten.length ≤ chunks.length * cs := by
  induction chunks with
  | nil => simp
  | cons a l ih =>
    simp only [List.flatten_cons, List.length_append, List.length_cons]
    have h1 := h a (List.mem_cons_self _ _)
    have h2 := ih fun c hc => h c (List.mem_cons_of_mem _ hc)
    have : (l.length + 1) * cs = l.length * cs + cs := by ring
    omega

theorem build_chunks_nil (csz : ℕ) : build_chunks [] csz = [[0]] := by
  unfold build_chunks chunkRawOr
  rw [chunkRaw_nil]
  rfl

theorem chunk_cs_nil (csz : ℕ) : chunk_cs [] csz = 1 := by
  unfold chunk_cs chunkRawOr
  rw [chunkRaw_nil]
  rfl

theorem nat_ceil_div_eq {L csz : ℕ} (hcsz : 1 ≤ csz) (hL : 1 ≤ L) :
    (((L + csz - 1) / csz : ℕ) : ℤ) = ⌈(L : ℚ) / (csz : ℚ)⌉ := by
  have hnn : (L + csz - 1) / csz = (L - 1) / csz + 1 := by
    rw [show L + csz - 1 = (L - 1) + csz by omega, Nat.add_div_right _ (by omega)]
  have hdm := Nat.div_add_mod (L - 1) csz
  have hmod := Nat.mod_lt (L - 1) (show 0 < csz by omega)
  revert hnn hdm hmod
  generalize hq : (L - 1) / csz = q
  generalize hr : (L - 1) % csz = r
  intro hnn hdm hmod
  -- csz * q + r = L - 1, r < csz
  have hQl : csz * q ≤ L - 1 := by omega
  have hQu : L ≤ csz * q + csz := by omega
  rw [hnn]
  symm
  rw [Int.ceil_eq_iff]
  constructor
  · have hlt : (q : ℚ) * csz < L := by
      have hlt' : q * csz < L := by
        have hc : q * csz = csz * q := by ring
        omega
      exact_mod_cast hlt'
    push_cast
    rw [lt_div_iff₀ (by positivity)]
    linarith
  · have hle : (L : ℚ) ≤ ((q : ℚ) + 1) * csz := by
      have hle' : L ≤ (q + 1) * csz := by
        have hc : (q + 1) * csz = csz * q + csz := by ring
        omega
      exact_mod_cast hle'
    push_cast
    rw [div_le_iff₀ (by positivity)]
    linarith

theorem build_chunks_len_pos (data : List ℕ) (csz : ℕ) : 1 ≤ (build_chunks data csz).length := by
  unfold build_chunks chunkRawOr
  simp only [List.length_map]
  split
  · simp
  · rename_i hne
    cases h : chunkRaw csz data with
    | nil => exact absurd h hne
    | cons a l => simp

theorem build_chunks_all_cs (data : List ℕ) (csz : ℕ) :
    ∀ c ∈ build_chunks data csz, c.length = chunk_cs data csz := by
  intro c hc
  unfold build_chunks at hc
  unfold chunk_cs
  obtain ⟨c0, hc0, rfl⟩ := List.mem_map.mp hc
  have hle := maxLen_ge _ _ hc0
  simp only [List.length_append, List.length_replicate]
  omega

theorem maxLen_le (chunks : List (List ℕ)) (b : ℕ) (h : ∀ c ∈ chunks, c.length ≤ b) :
    maxLen chunks ≤ b := by
  induction chunks with
  | nil => simp [maxLen]
  | cons a l ih =>
    unfold maxLen
    simp only [List.map_cons, List.foldr_cons]
    have h1 := h a (List.mem_cons_self _ _)
    have h2 := ih fun c hc => h c (List.mem_cons_of_mem _ hc)
    unfold maxLen at h2
    omega

theorem chunkRaw_ne_nil {csz : ℕ} (hcsz : 1 ≤ csz) (data : List ℕ) (hne : data ≠ []) :
    chunkRaw csz data ≠ [] := by
  rw [chunkRaw_cons hcsz data hne]
  simp

theorem chunkRawOr_of_ne {csz : ℕ} (hcsz : 1 ≤ csz) (data : List ℕ) (hne : data ≠ []) :
    chunkRawOr data csz = chunkRaw csz data := by
  unfold chunkRawOr
  rw [if_neg (chunkRaw_ne_nil hcsz data hne)]

theorem build_chunks_length_of_ne {csz : ℕ} (hcsz : 1 ≤ csz) (data : List ℕ)
    (hne : data ≠ []) :
    (build_chunks data csz).length = (data.length + csz - 1) / csz := by
  unfold build_chunks
  rw [List.length_map, chunkRawOr_of_ne hcsz data hne,
    chunkRaw_length hcsz data.length data le_rfl]

theorem build_chunks_flatten_take {csz : ℕ} (hcsz : 1 ≤ csz) (data : List ℕ) :
    (build_chunks data csz).flatten.take data.length = data := by
  by_cases hne : data = []
  · subst hne
    rw [build_chunks_nil]
    rfl
  · obtain ⟨pre, last, heq, hpre, hl1, hl2⟩ :=
      chunkRaw_struct hcsz data.length data le_rfl hne
    have hflat : (chunkRaw csz data).flatten = data :=
      chunkRaw_flatten hcsz data.length data le_rfl
    rw [heq] at hflat
    have hflat2 : pre.flatten ++ last = data := by
      rw [← hflat]
      simp
    unfold build_chunks
    rw [chunkRawOr_of_ne hcsz data hne, heq]
    set cs := maxLen (pre ++ [last]) with hcs
    have hpads : (pre ++ [last]).map (fun c => c ++ List.replicate (cs - c.length) 0) =
        pre ++ [last ++ List.replicate (cs - last.length) 0] := by
      rw [List.map_append]
      congr 1
      conv_rhs => rw [← List.map_id pre]
      apply List.map_congr_left
      intro c hc
      simp only [id]
      have hc_csz : c.length = csz := hpre c hc
      have hc_le : c.length ≤ cs := maxLen_ge _ _ (by simp [hc])
      have hcs_le : cs ≤ csz := by
        apply maxLen_le
        intro c2 hc2
        rcases List.mem_append.mp hc2 with h2 | h2
        · exact le_of_eq (hpre c2 h2)
        · simp only [List.mem_singleton] at h2
          subst h2
          exact hl2
      rw [show cs - c.length = 0 by omega]
      simp
    rw [hpads]
    have hj : (pre ++ [last ++ List.replicate (cs - last.length) 0]).flatten =
        data ++ List.replicate (cs - last.length) 0 := by
      rw [List.flatten_append, ← hflat2]
      simp [List.append_assoc]
    rw [hj, ← hflat2, List.take_left]

theorem build_chunks_L_le {csz : ℕ} (hcsz : 1 ≤ csz) (data : List ℕ) :
    data.length ≤ (build_chunks data csz).length * chunk_cs data csz := by
  by_cases hne : data = []
  · subst hne
    simp
  · have hflat : (chunkRaw csz data).flatten = data :=
      chunkRaw_flatten hcsz data.length data le_rfl
    unfold build_chunks chunk_cs
    rw [List.length_map, chunkRawOr_of_ne hcsz data hne]
    calc data.length = (chunkRaw csz data).flatten.length := by rw [hflat]
      _ ≤ (chunkRaw csz data).length * maxLen (chunkRaw csz data) :=
          flatten_length_le _ _ (maxLen_ge _)

/-! ## Robust soliton CDF shape -/

theorem rsCdfAux_length (pmf : ℕ → ℚ) :
    ∀ (cnt : ℕ) (s : ℚ) (d : ℕ), (rsCdfAux pmf cnt s d).length = cnt := by
  intro cnt
  induction cnt with
  | zero => intro s d; rfl
  | succ cnt ih =>
    intro s d
    simp only [rsCdfAux, List.length_cons, ih]

theorem robust_soliton_cdf_length (K R : ℕ) (lg : ℚ) :
    (robust_soliton_cdf K R lg).length = K + 1 := by
  unfold robust_soliton_cdf
  simp [rsCdfAux_length]

theorem robust_soliton_cdf_head (K R : ℕ) (lg : ℚ) (hK : 1 ≤ K) :
    (robust_soliton_cdf K R lg).getD 0 0 = 0 := by
  unfold robust_soliton_cdf
  obtain ⟨c, t, hct⟩ : ∃ c t, rsCdfAux (rsPmf K R lg) K 0 1 = c :: t := by
    cases h : rsCdfAux (rsPmf K R lg) K 0 1 with
    | nil =>
      have := rsCdfAux_length (rsPmf K R lg) K 0 1
      rw [h] at this
      simp at this
      omega
    | cons c t => exact ⟨c, t, rfl⟩
  rw [hct]
  simp [List.dropLast_cons₂]

theorem robust_soliton_cdf_last (K R : ℕ) (lg : ℚ) :
    (robust_soliton_cdf K R lg).getLast? = some 1 := by
  unfold robust_soliton_cdf
  simp only
  rw [List.getLast?_concat]

/-! ## split_bytes_into_n -/

theorem split_fold_fst_length (data : List ℕ) :
    ∀ (sizes : List ℕ) (acc : List (List ℕ)) (idx : ℕ),
      ((sizes.foldl (fun acc s => (acc.1 ++ [(data.drop acc.2).take s], acc.2 + s))
        (acc, idx)).1).length = acc.length + sizes.length := by
  intro sizes
  induction sizes with
  | nil => intro acc idx; simp
  | cons s rest ih =>
    intro acc idx
    simp only [List.foldl_cons]
    rw [ih]
    simp only [List.length_append, List.length_cons, List.length_nil]
    omega

theorem split_fold_flatten (data : List ℕ) :
    ∀ (sizes : List ℕ) (acc : List (List ℕ)) (idx : ℕ),
      ((sizes.foldl (fun acc s => (acc.1 ++ [(data.drop acc.2).take s], acc.2 + s))
        (acc, idx)).1).flatten = acc.flatten ++ (data.drop idx).take sizes.sum := by
  intro sizes
  induction sizes with
  | nil => intro acc idx; simp
  | cons s rest ih =>
    intro acc idx
    simp only [List.foldl_cons, List.sum_cons]
    rw [ih]
    simp only [List.flatten_append, List.flatten_cons, List.flatten_nil, List.append_nil]
    rw [List.append_assoc]
    congr 1
    rw [← List.drop_drop, ← List.take_add]

theorem split_fold_lengths (data : List ℕ) :
    ∀ (sizes : List ℕ) (acc : List (List ℕ)) (idx : ℕ),
      idx + sizes.sum ≤ data.length →
      ((sizes.foldl (fun acc s => (acc.1 ++ [(data.drop acc.2).take s], acc.2 + s))
        (acc, idx)).1).map List.length = acc.map List.length ++ sizes := by
  intro sizes
  induction sizes with
  | nil => intro acc idx _; simp
  | cons s rest ih =>
    intro acc idx hle
    simp only [List.sum_cons] at hle
    simp only [List.foldl_cons]
    rw [ih _ _ (by omega)]
    simp only [List.map_append, List.map_cons, List.map_nil]
    have hslice : ((data.drop idx).take s).length = s := by
      simp only [List.length_take, List.length_drop]
      omega
    rw [List.append_assoc, List.singleton_append, hslice]

theorem split_sizes_sum (L n : ℕ) (hn : 1 ≤ n) :
    (List.replicate (L % n) (L / n + 1) ++ List.replicate (n - L % n) (L / n)).sum = L := by
  rw [List.sum_append, List.sum_replicate, List.sum_replicate, smul_eq_mul, smul_eq_mul]
  have hdm := Nat.div_add_mod L n
  have hmod := Nat.mod_lt L (show 0 < n by omega)
  have e1 : L % n * (L / n + 1) = L % n * (L / n) + L % n := by ring
  have e2 : (n - L % n) * (L / n) = n * (L / n) - L % n * (L / n) :=
    Nat.sub_mul _ _ _
  have e3 : L % n * (L / n) ≤ n * (L / n) :=
    Nat.mul_le_mul_right _ (by omega)
  omega

theorem split_bytes_into_n_none (data : List ℕ) (n : ℕ) :
    split_bytes_into_n data n = none ↔ n < 1 := by
  unfold split_bytes_into_n
  constructor
  · intro h
    by_contra hn
    rw [if_neg hn] at h
    cases h
  · intro h
    rw [if_pos h]

theorem split_bytes_into_n_spec (data : List ℕ) (n : ℕ) (hn : 1 ≤ n) :
    ∃ parts, split_bytes_into_n data n = some parts ∧
      parts.length = n ∧ parts.flatten = data ∧
      parts.map List.length =
        List.replicate (data.length % n) (data.length / n + 1) ++
          List.replicate (n - data.length % n) (data.length / n) := by
  have hsum := split_sizes_sum data.length n hn
  refine ⟨_, by unfold split_bytes_into_n; rw [if_neg (by omega)], ?_, ?_, ?_⟩
  · rw [split_fold_fst_length]
    simp only [List.length_nil, List.length_append, List.length_replicate]
    have := Nat.mod_lt data.length (show 0 < n by omega)
    omega
  · rw [split_fold_flatten]
    simp only [List.flatten_nil, List.nil_append, List.drop_zero, hsum]
    exact List.take_length data
  · rw [split_fold_lengths data _ _ _ (by omega)]
    simp

theorem framesLoop_eq_map (f : ℕ → Option Frame) (g : ℕ → Frame) :
    ∀ syms : List ℕ, (∀ sym ∈ syms, f sym = some (g sym)) →
      framesLoop f syms = some (syms.map g) := by
  intro syms
  induction syms with
  | nil => intro _; rfl
  | cons sym rest ih =>
    intro h
    simp only [framesLoop, h sym (List.mem_cons_self _ _)]
    rw [ih fun s hs => h s (List.mem_cons_of_mem _ hs)]
    rfl

theorem build_chunks_length_lt {csz : ℕ} (hcsz : 1 ≤ csz) (data : List ℕ)
    (hL : data.length < 2 ^ 32) : (build_chunks data csz).length < 2 ^ 32 := by
  by_cases hne : data = []
  · subst hne
    rw [build_chunks_nil]
    norm_num
  · rw [build_chunks_length_of_ne hcsz data hne]
    have hL1 : 1 ≤ data.length := by
      cases data with
      | nil => exact absurd rfl hne
      | cons a l => simp
    have hmul : data.length ≤ data.length * csz := Nat.le_mul_of_pos_right _ (by omega)
    have hdiv : (data.length + csz - 1) / csz < data.length + 1 := by
      rw [Nat.div_lt_iff_lt_mul (by omega)]
      have : (data.length + 1) * csz = data.length * csz + csz := by ring
      omega
    omega

theorem build_frames_spec (data : List ℕ) (csz : ℕ) (overhead : ℚ) (fecSeed : ℕ)
    (sid : List ℕ) (salts : ℕ → List ℕ) (R : ℕ) (lg : ℚ)
    (hcsz : 1 ≤ csz) (hL : data.length < 2 ^ 32) :
    ∃ fl, build_frames data csz overhead fecSeed sid salts R lg = some fl ∧
      fl.length = (⌈((build_chunks data csz).length : ℚ) * (1 + overhead)⌉).toNat ∧
      fl.map Frame.i = List.range fl.length ∧
      ∀ fr ∈ fl, fr.v = 1 ∧ fr.sid = sid ∧ fr.len = data.length ∧
        fr.K = (build_chunks data csz).length ∧ fr.cs = chunk_cs data csz ∧
        fr.r = fecSeed ∧ fr.x = salts fr.i ∧
        lt_encode_symbol (build_chunks data csz) fr.i fecSeed
          (robust_soliton_cdf (build_chunks data csz).length R lg) = some (fr.p, fr.d) := by
  have hK1 := build_chunks_len_pos data csz
  have hK := build_chunks_length_lt hcsz data hL
  set chunks := build_chunks data csz with hchunks
  set cdf := robust_soliton_cdf chunks.length R lg with hcdf
  set N := (⌈(chunks.length : ℚ) * (1 + overhead)⌉).toNat with hN
  set g : ℕ → Frame := fun sym =>
    { v := 1, sid := sid, len := data.length, K := chunks.length, cs := chunk_cs data csz,
      i := sym, r := fecSeed,
      d := ((lt_encode_symbol chunks sym fecSeed cdf).getD ([], 0)).2,
      p := ((lt_encode_symbol chunks sym fecSeed cdf).getD ([], 0)).1,
      x := salts sym } with hg
  have hsome : ∀ sym, ∃ p d, lt_encode_symbol chunks sym fecSeed cdf = some (p, d) := by
    intro sym
    obtain ⟨p, d, idxs, henc, _⟩ := lt_encode_symbol_spec chunks sym fecSeed cdf
      (chunk_cs data csz) (build_chunks_all_cs data csz) hK1 hK
    exact ⟨p, d, henc⟩
  have hloop : framesLoop
      (fun sym => (lt_encode_symbol chunks sym fecSeed cdf).map fun pd =>
        { v := 1, sid := sid, len := data.length, K := chunks.length,
          cs := chunk_cs data csz, i := sym, r := fecSeed, d := pd.2, p := pd.1,
          x := salts sym })
      (List.range N) = some ((List.range N).map g) := by
    apply framesLoop_eq_map
    intro sym _
    obtain ⟨p, d, henc⟩ := hsome sym
    rw [henc, hg]
    simp only [henc]
    rfl
  refine ⟨(List.range N).map g, ?_, ?_, ?_, ?_⟩
  · unfold build_frames
    exact hloop
  · simp only [List.length_map, List.length_range, hN]
  · simp only [List.length_map, List.length_range]
    rw [List.map_map]
    conv_rhs => rw [← List.map_id (List.range N)]
    apply List.map_congr_left
    intro sym _
    rfl
  · intro fr hfr
    obtain ⟨sym, _, rfl⟩ := List.mem_map.mp hfr
    obtain ⟨p, d, henc⟩ := hsome sym
    refine ⟨rfl, rfl, rfl, rfl, rfl, rfl, rfl, ?_⟩
    show lt_encode_symbol chunks sym fecSeed cdf = some ((g sym).p, (g sym).d)
    rw [henc, hg]
    simp only
    rw [henc]
    rfl


/-! helpers -/

theorem list_eq_of_getD {a b : List ℕ} (hlen : a.length = b.length)
    (h : ∀ pos, pos < a.length → a.getD pos 0 = b.getD pos 0) : a = b := by
  apply List.ext_getElem hlen
  intro i h1 h2
  have hh := h i h1
  rwa [List.getD_eq_getElem _ _ h1, List.getD_eq_getElem _ _ h2] at hh

theorem getD_set_self (l : List (Option (List ℕ))) (j : ℕ) (a : Option (List ℕ))
    (hj : j < l.length) : (l.set j a).getD j none = a := by
  rw [List.getD_eq_getElem _ _ (by rw [List.length_set]; exact hj)]
  exact List.getElem_set_self _

theorem getD_set_ne (l : List (Option (List ℕ))) (i j : ℕ) (a : Option (List ℕ))
    (hne : j ≠ i) : (l.set j a).getD i none = l.getD i none := by
  rcases Nat.lt_or_ge i l.length with hi | hi
  · rw [List.getD_eq_getElem _ _ (by rw [List.length_set]; exact hi),
      List.getD_eq_getElem _ _ hi]
    exact List.getElem_set_ne hne _
  · rw [List.getD_eq_default _ _ (by rw [List.length_set]; exact hi),
      List.getD_eq_default _ _ hi]

theorem xor_foldr_partition (g : ℕ → ℕ) (P : ℕ → Bool) :
    ∀ l : List ℕ,
      (((l.filter P).map g).foldr (· ^^^ ·) 0) ^^^
        (((l.filter fun x => !P x).map g).foldr (· ^^^ ·) 0) =
      ((l.map g).foldr (· ^^^ ·) 0) := by
  intro l
  induction l with
  | nil => simp
  | cons a l ih =>
    by_cases hPa : P a = true
    · rw [List.filter_cons_of_pos (by simp [hPa]), List.filter_cons_of_neg (by simp [hPa])]
      simp only [List.map_cons, List.foldr_cons]
      rw [← ih, Nat.xor_assoc]
    · rw [List.filter_cons_of_neg (by simp [hPa]), List.filter_cons_of_pos (by simp [hPa])]
      simp only [List.map_cons, List.foldr_cons]
      rw [← ih, ← Nat.xor_assoc,
        Nat.xor_comm (((l.filter P).map g).foldr (· ^^^ ·) 0) (g a), Nat.xor_assoc]

theorem reduceRec_spec (chunks : List (List ℕ)) (cs : ℕ) (hall : ∀ c ∈ chunks, c.length = cs)
    (solved : List (Option (List ℕ)))
    (hsol : ∀ j v, solved.getD j none = some v → v = chunks.getD j []) :
    ∀ (idxs : List ℕ) (p : List ℕ), (∀ j ∈ idxs, j < chunks.length) → p.length = cs →
      (reduceRec solved (idxs, p)).1 = idxs.filter (fun j => (solved.getD j none).isNone) ∧
      (reduceRec solved (idxs, p)).2.length = cs ∧
      ∀ pos, pos < cs →
        (reduceRec solved (idxs, p)).2.getD pos 0 =
          p.getD pos 0 ^^^
            (((idxs.filter fun j => (solved.getD j none).isSome).map
              fun j => (chunks.getD j []).getD pos 0).foldr (· ^^^ ·) 0) := by
  intro idxs
  induction idxs with
  | nil =>
    intro p _ hp
    exact ⟨rfl, hp, fun pos _ => by simp [reduceRec]⟩
  | cons j rest ih =>
    intro p hmem hp
    have hj : j < chunks.length := hmem j (List.mem_cons_self _ _)
    obtain ⟨ih1, ih2, ih3⟩ := ih p (fun i hi => hmem i (List.mem_cons_of_mem _ hi)) hp
    have hrr : reduceRec solved (j :: rest, p) =
        (match solved.getD j none with
          | some v => ((reduceRec solved (rest, p)).1, bytesXor (reduceRec solved (rest, p)).2 v)
          | none => (j :: (reduceRec solved (rest, p)).1, (reduceRec solved (rest, p)).2)) := rfl
    cases hsj : solved.getD j none with
    | none =>
      rw [hrr, hsj]
      simp only
      refine ⟨?_, ih2, ?_⟩
      · rw [List.filter_cons_of_pos (by rw [hsj]; simp), ih1]
      · intro pos hpos
        rw [List.filter_cons_of_neg (by rw [hsj]; simp)]
        exact ih3 pos hpos
    | some v =>
      have hv : v = chunks.getD j [] := hsol j v hsj
      have hvlen : v.length = cs := by
        rw [hv]
        exact chunks_getD_length hall hj
      rw [hrr, hsj]
      simp only
      refine ⟨?_, ?_, ?_⟩
      · rw [List.filter_cons_of_neg (by rw [hsj]; simp), ih1]
      · rw [bytesXor_length, ih2, hvlen]
        omega
      · intro pos hpos
        rw [List.filter_cons_of_pos (by rw [hsj]; simp), bytesXor_getD _ _ pos (by omega) (by omega),
          ih3 pos hpos, hv]
        simp only [List.map_cons, List.foldr_cons]
        rw [Nat.xor_assoc, Nat.xor_comm
          ((((rest.filter fun j => (solved.getD j none).isSome).map
            fun j => (chunks.getD j []).getD pos 0).foldr (· ^^^ ·) 0))
          ((chunks.getD j []).getD pos 0), ← Nat.xor_assoc]

theorem findRipe_mem :
    ∀ (recs : List (List ℕ × List ℕ)) (j : ℕ) (v : List ℕ),
      findRipe recs = some (j, v) → ([j], v) ∈ recs := by
  intro recs
  induction recs with
  | nil => intro j v h; cases h
  | cons r rest ih =>
    intro j v h
    obtain ⟨is, p⟩ := r
    cases his : is with
    | nil =>
      rw [his] at h
      simp only [findRipe] at h
      exact List.mem_cons_of_mem _ (ih j v h)
    | cons a t =>
      cases t with
      | nil =>
        rw [his] at h
        simp only [findRipe] at h
        injection h with h1
        injection h1 with h2 h3
        subst h2
        subst h3
        exact List.mem_cons_self _ _
      | cons b t2 =>
        rw [his] at h
        simp only [findRipe] at h
        exact List.mem_cons_of_mem _ (ih j v h)

theorem dec_indices_eq (fr : Frame) (cdf : List ℚ) (idxs : List ℕ)
    (h : lt_indices fr.K fr.i fr.r cdf = some (idxs, fr.d)) :
    dec_indices fr = some idxs := by
  simp only [lt_indices] at h
  simp only [dec_indices]
  rw [Option.map_eq_some'] at h
  obtain ⟨pr, hdf, hpr⟩ := h
  have h2 : List.insertionSort (fun a b => a ≤ b) pr.1 = idxs := congrArg Prod.fst hpr
  have h3 : max 1 (min fr.K (sample_degree cdf (xsInit (lt_seed fr.r fr.i fr.K))).1) = fr.d :=
    congrArg Prod.snd hpr
  have hsd : (sample_degree cdf (xsInit (lt_seed fr.r fr.i fr.K))).2 =
      xsStep (xsInit (lt_seed fr.r fr.i fr.K)) := rfl
  rw [← h3, ← hsd, hdf]
  show some (List.insertionSort (fun a b => a ≤ b) pr.1) = some idxs
  rw [h2]

theorem recs_after_solve (data : List ℕ) (csz : ℕ) (solved : List (Option (List ℕ)))
    (hsol : ∀ j v, solved.getD j none = some v → v = (build_chunks data csz).getD j [])
    (r : List ℕ × List ℕ) (hr : RecOK data csz r) :
    RecOK data csz (reduceRec solved r) := by
  obtain ⟨hb, hlen, hxor⟩ := hr
  obtain ⟨h1, h2, h3⟩ := reduceRec_spec (build_chunks data csz) (chunk_cs data csz)
    (build_chunks_all_cs data csz) solved hsol r.1 r.2 hb hlen
  refine ⟨?_, h2, ?_⟩
  · intro j hj
    rw [h1] at hj
    exact hb j (List.mem_of_mem_filter hj)
  · intro pos hpos
    rw [h3 pos hpos, hxor pos hpos, h1]
    have hpart := xor_foldr_partition (fun j => ((build_chunks data csz).getD j []).getD pos 0)
      (fun j => (solved.getD j none).isSome) r.1
    have hiso : (r.1.filter fun x => !(solved.getD x none).isSome) =
        r.1.filter fun x => (solved.getD x none).isNone := by
      apply List.filter_congr
      intro x _
      cases solved.getD x none <;> rfl
    rw [hiso] at hpart
    set A := ((r.1.filter fun j => (solved.getD j none).isSome).map
      fun j => ((build_chunks data csz).getD j []).getD pos 0).foldr (· ^^^ ·) 0 with hA
    set B := ((r.1.filter fun j => (solved.getD j none).isNone).map
      fun j => ((build_chunks data csz).getD j []).getD pos 0).foldr (· ^^^ ·) 0 with hB
    set T := ((r.1.map fun j => ((build_chunks data csz).getD j []).getD pos 0).foldr
      (· ^^^ ·) 0) with hT
    rw [← hpart, Nat.xor_comm A B, Nat.xor_assoc, Nat.xor_self, Nat.xor_zero]

theorem drain_inv (data : List ℕ) (csz : ℕ) (sid : List ℕ) :
    ∀ (fuel : ℕ) (st : DecodeState), DecInv data csz sid st →
      DecInv data csz sid (drain fuel st) := by
  intro fuel
  induction fuel with
  | zero => intro st h; exact h
  | succ fuel ih =>
    intro st hinv
    obtain ⟨hsid, hlen, hK, hslen, hsval, hrecs⟩ := hinv
    show DecInv data csz sid (drain (fuel + 1) st)
    simp only [drain]
    cases hfind : findRipe st.recs with
    | none => exact ⟨hsid, hlen, hK, hslen, hsval, hrecs⟩
    | some jv =>
      obtain ⟨j, v⟩ := jv
      have hmem := findRipe_mem st.recs j v hfind
      obtain ⟨hjb, hvlen, hvxor⟩ := hrecs ([j], v) hmem
      have hjK : j < (build_chunks data csz).length := hjb j (List.mem_cons_self _ _)
      have hveq : v = (build_chunks data csz).getD j [] := by
        apply list_eq_of_getD
        · rw [hvlen, chunks_getD_length (build_chunks_all_cs data csz) hjK]
        · intro pos hpos
          rw [hvlen] at hpos
          rw [hvxor pos hpos]
          simp
      apply ih
      have hsol' : ∀ j' v', (st.solved.set j (some v)).getD j' none = some v' →
          v' = (build_chunks data csz).getD j' [] := by
        intro j' v' h'
        by_cases hj' : j' = j
        · subst hj'
          rw [getD_set_self _ _ _ (by omega)] at h'
          injection h' with h''
          rw [← h'', hveq]
        · rw [getD_set_ne _ _ _ _ (by omega)] at h'
          exact hsval j' v' h'
      refine ⟨hsid, hlen, hK, by rw [List.length_set]; exact hslen, hsol', ?_⟩
      intro r hr
      have hr' := List.mem_of_mem_filter hr
      obtain ⟨r0, hr0, rfl⟩ := List.mem_map.mp hr'
      exact recs_after_solve data csz _ hsol' r0 (hrecs r0 hr0)

theorem replicate_none_getD (n j : ℕ) :
    (List.replicate n (none : Option (List ℕ))).getD j none = none := by
  rcases Nat.lt_or_ge j n with hj | hj
  · rw [List.getD_eq_getElem _ _ (by rwa [List.length_replicate])]
    exact List.getElem_replicate _ _
  · rw [List.getD_eq_default _ _ (by rwa [List.length_replicate])]

theorem feedBody_inv (data : List ℕ) (csz : ℕ) (sid : List ℕ) (fecSeed R : ℕ) (lg : ℚ)
    (hcsz : 1 ≤ csz) (hL : data.length < 2 ^ 32)
    (st : DecodeState) (fr : Frame) (hinv : DecInv data csz sid st)
    (hfr : FrameOK data csz sid fecSeed R lg fr) :
    DecInv data csz sid (feedBody st fr) := by
  obtain ⟨hsid, hlen, hK, hslen, hsval, hrecs⟩ := hinv
  obtain ⟨hfsid, hflen, hfK, hfr', henc⟩ := hfr
  unfold feedBody
  by_cases hseen : fr.i ∈ st.seen
  · rw [if_pos hseen]
    exact ⟨hsid, hlen, hK, hslen, hsval, hrecs⟩
  · rw [if_neg hseen]
    have hK1 := build_chunks_len_pos data csz
    have hKlt := build_chunks_length_lt hcsz data hL
    obtain ⟨p, d, idxs, henc2, hidx, hd1, hdK, hnd, hsub, hilen, hplen, hpxor⟩ :=
      lt_encode_symbol_spec (build_chunks data csz) fr.i fecSeed
        (robust_soliton_cdf (build_chunks data csz).length R lg)
        (chunk_cs data csz) (build_chunks_all_cs data csz) hK1 hKlt
    rw [henc] at henc2
    have hpd : p = fr.p ∧ d = fr.d := by
      injection henc2 with h1
      injection h1 with h2 h3
      exact ⟨h2.symm, h3.symm⟩
    obtain ⟨rfl, rfl⟩ : p = fr.p ∧ d = fr.d := hpd
    have hidx' : lt_indices fr.K fr.i fr.r
        (robust_soliton_cdf (build_chunks data csz).length R lg) = some (idxs, fr.d) := by
      rw [hfK, hfr']
      exact hidx
    rw [dec_indices_eq fr _ idxs hidx']
    simp only
    have hnewrec := reduceRec_spec (build_chunks data csz) (chunk_cs data csz)
      (build_chunks_all_cs data csz) st.solved hsval idxs fr.p hsub hplen
    obtain ⟨hn1, hn2, hn3⟩ := hnewrec
    by_cases hempty : (reduceRec st.solved (idxs, fr.p)).1.isEmpty = true
    · rw [if_pos hempty]
      exact ⟨hsid, hlen, hK, hslen, hsval, hrecs⟩
    · rw [if_neg hempty]
      apply drain_inv
      refine ⟨hsid, hlen, hK, hslen, hsval, ?_⟩
      intro r hr
      rcases List.mem_cons.mp hr with rfl | hr
      · refine ⟨?_, hn2, ?_⟩
        · intro j hj
          rw [hn1] at hj
          exact hsub j (List.mem_of_mem_filter hj)
        · intro pos hpos
          rw [hn3 pos hpos, hpxor pos hpos, hn1]
          have hpart := xor_foldr_partition
            (fun j => ((build_chunks data csz).getD j []).getD pos 0)
            (fun j => (st.solved.getD j none).isSome) idxs
          have hiso : (idxs.filter fun x => !(st.solved.getD x none).isSome) =
              idxs.filter fun x => (st.solved.getD x none).isNone := by
            apply List.filter_congr
            intro x _
            cases st.solved.getD x none <;> rfl
          rw [hiso] at hpart
          rw [← hpart, Nat.xor_comm
            (((idxs.filter fun j => (st.solved.getD j none).isSome).map
              fun j => ((build_chunks data csz).getD j []).getD pos 0).foldr (· ^^^ ·) 0)
            (((idxs.filter fun j => (st.solved.getD j none).isNone).map
              fun j => ((build_chunks data csz).getD j []).getD pos 0).foldr (· ^^^ ·) 0),
            Nat.xor_assoc, Nat.xor_self, Nat.xor_zero]
      · exact hrecs r hr

theorem feedFrame_inv (data : List ℕ) (csz : ℕ) (sid : List ℕ) (fecSeed R : ℕ) (lg : ℚ)
    (hcsz : 1 ≤ csz) (hL : data.length < 2 ^ 32)
    (st : DecodeState) (fr : Frame) (hinv : DecInv data csz sid st)
    (hfr : FrameOK data csz sid fecSeed R lg fr) :
    DecInv data csz sid (feedFrame st fr) := by
  unfold feedFrame
  rw [if_pos (by rw [hfr.1, hinv.1])]
  exact feedBody_inv data csz sid fecSeed R lg hcsz hL st fr hinv hfr

theorem foldl_feed_inv (data : List ℕ) (csz : ℕ) (sid : List ℕ) (fecSeed R : ℕ) (lg : ℚ)
    (hcsz : 1 ≤ csz) (hL : data.length < 2 ^ 32) :
    ∀ (frames : List Frame) (st : DecodeState),
      (∀ fr ∈ frames, FrameOK data csz sid fecSeed R lg fr) →
      DecInv data csz sid st →
      DecInv data csz sid (frames.foldl feedFrame st) := by
  intro frames
  induction frames with
  | nil => intro st _ h; exact h
  | cons fr rest ih =>
    intro st hfr hinv
    simp only [List.foldl_cons]
    exact ih _ (fun f hf => hfr f (List.mem_cons_of_mem _ hf))
      (feedFrame_inv data csz sid fecSeed R lg hcsz hL st fr hinv
        (hfr fr (List.mem_cons_self _ _)))

theorem initState_inv (data : List ℕ) (csz : ℕ) (sid : List ℕ) (fecSeed R : ℕ) (lg : ℚ)
    (fr : Frame) (hfr : FrameOK data csz sid fecSeed R lg fr) :
    DecInv data csz sid (initState fr) := by
  obtain ⟨hfsid, hflen, hfK, _, _⟩ := hfr
  refine ⟨hfsid, hflen, hfK, ?_, ?_, ?_⟩
  · simp only [initState, List.length_replicate]
    exact hfK
  · intro j v h
    rw [show (initState fr).solved = List.replicate fr.K none from rfl,
      replicate_none_getD] at h
    cases h
  · intro r hr
    cases hr

theorem decode_frames_sound (data : List ℕ) (csz : ℕ) (sid : List ℕ) (fecSeed R : ℕ)
    (lg : ℚ) (hcsz : 1 ≤ csz) (hL : data.length < 2 ^ 32)
    (frames : List Frame) (hfr : ∀ fr ∈ frames, FrameOK data csz sid fecSeed R lg fr)
    (out : List ℕ) (hout : decode_frames frames = some out) : out = data := by
  cases frames with
  | nil => cases hout
  | cons f0 rest =>
    have hinv0 : DecInv data csz sid (initState f0) :=
      initState_inv data csz sid fecSeed R lg f0 (hfr f0 (List.mem_cons_self _ _))
    have hinv : DecInv data csz sid ((f0 :: rest).foldl feedFrame (initState f0)) :=
      foldl_feed_inv data csz sid fecSeed R lg hcsz hL (f0 :: rest) (initState f0)
        hfr hinv0
    set final := (f0 :: rest).foldl feedFrame (initState f0) with hfinal
    obtain ⟨hsid, hlen, hK, hslen, hsval, hrecs⟩ := hinv
    simp only [decode_frames, ← hfinal] at hout
    by_cases hall : final.solved.all Option.isSome = true
    · rw [if_pos hall] at hout
      injection hout with hout'
      have hmap : final.solved.map (fun o => o.getD []) = build_chunks data csz := by
        apply List.ext_getElem
        · rw [List.length_map, hslen]
        · intro i h1 h2
          rw [List.getElem_map]
          have hisome : final.solved[i].isSome := by
            have := List.all_eq_true.mp hall final.solved[i] (List.getElem_mem _)
            exact this
          obtain ⟨v, hv⟩ := Option.isSome_iff_exists.mp hisome
          have hgd : final.solved.getD i none = some v := by
            rw [List.getD_eq_getElem _ _ (by rw [List.length_map] at h1; exact h1)]
            exact hv
          rw [hv]
          have := hsval i v hgd
          rw [this, List.getD_eq_getElem _ _ h2]
          rfl
      rw [← hout', hmap, hlen, build_chunks_flatten_take hcsz data]
    · rw [if_neg hall] at hout
      cases hout

theorem drawFuel_none_at_K32 :
    ∀ (fuel s : ℕ) (chosen : List ℕ), 0 < s → s < 2 ^ 32 → chosen.Nodup →
      (∀ c ∈ chosen, 0 < c ∧ c < 2 ^ 32) →
      drawFuel (2 ^ 32) (2 ^ 32) fuel s chosen = none := by
  have hlen : ∀ chosen : List ℕ, chosen.Nodup → (∀ c ∈ chosen, 0 < c ∧ c < 2 ^ 32) →
      chosen.length < 2 ^ 32 := by
    intro chosen hnd hmem
    classical
    have hsub : chosen.toFinset ⊆ (Finset.range (2 ^ 32)).erase 0 := by
      intro c hc
      have h := hmem c (List.mem_toFinset.mp hc)
      exact Finset.mem_erase.mpr ⟨by omega, Finset.mem_range.mpr h.2⟩
    have hcard := Finset.card_le_card hsub
    rw [List.toFinset_card_of_nodup hnd, Finset.card_erase_of_mem
      (Finset.mem_range.mpr (by norm_num)), Finset.card_range] at hcard
    omega
  intro fuel
  induction fuel with
  | zero =>
    intro s chosen hs0 hs hnd hmem
    simp only [drawFuel]
    rw [if_neg (by have := hlen chosen hnd hmem; omega)]
  | succ fuel ih =>
    intro s chosen hs0 hs hnd hmem
    simp only [drawFuel]
    rw [if_neg (by have := hlen chosen hnd hmem; omega)]
    have hv : xsStep s % 2 ^ 32 = xsStep s := Nat.mod_eq_of_lt (xsStep_lt s)
    rw [hv]
    by_cases hmem2 : xsStep s ∈ chosen
    · rw [List.insert_of_mem hmem2]
      exact ih (xsStep s) chosen (xsStep_pos hs0 hs) (xsStep_lt s) hnd hmem
    · rw [List.insert_of_not_mem hmem2]
      refine ih (xsStep s) _ (xsStep_pos hs0 hs) (xsStep_lt s)
        (List.nodup_cons.mpr ⟨hmem2, hnd⟩) ?_
      intro c hc
      rcases List.mem_cons.mp hc with rfl | hc
      · exact ⟨xsStep_pos hs0 hs, xsStep_lt s⟩
      · exact hmem c hc

theorem sdAux_all_lt (cdf : List ℚ) (u : ℚ) :
    ∀ (fuel lo hi : ℕ), lo ≤ hi → hi - lo ≤ fuel →
      (∀ m, lo ≤ m → m < hi → cdf.getD m 0 < u) → sdAux cdf u fuel lo hi = hi := by
  intro fuel
  induction fuel with
  | zero =>
    intro lo hi hle hfuel _
    have : lo = hi := by omega
    subst this
    rfl
  | succ fuel ih =>
    intro lo hi hle hfuel hlt
    simp only [sdAux]
    by_cases hlo : lo < hi
    · rw [if_pos hlo]
      have hmid1 : lo ≤ (lo + hi) / 2 := by omega
      have hmid2 : (lo + hi) / 2 < hi := by omega
      rw [if_neg (by have := hlt _ hmid1 hmid2; exact not_le.mpr this)]
      exact ih _ _ (by omega) (by omega) fun m hm1 hm2 => hlt m (by omega) hm2
    · rw [if_neg hlo]
      omega

theorem getD_replicate_rat {n i : ℕ} (a : ℚ) (h : i < n) :
    (List.replicate n a).getD i 0 = a := by
  rw [List.getD_eq_getElem _ _ (by rwa [List.length_replicate])]
  exact List.getElem_replicate _ _

theorem sample_degree_all_zero (s : ℕ) (hs0 : 0 < s) (hs : s < 2 ^ 32) :
    (sample_degree (List.replicate (2 ^ 32 + 1) (0 : ℚ)) s).1 = 2 ^ 32 := by
  have hpos : (0 : ℚ) < (xsStep s : ℚ) / 2 ^ 32 := by
    apply div_pos
    · exact_mod_cast xsStep_pos hs0 hs
    · positivity
  simp only [sample_degree, sdLoop, List.length_replicate]
  have h1 : (2 : ℕ) ^ 32 + 1 - 1 = 2 ^ 32 := by omega
  rw [h1]
  apply sdAux_all_lt
  · norm_num
  · omega
  · intro m hm1 hm2
    rw [getD_replicate_rat _ (by omega)]
    exact hpos

theorem lt_seed_zero_K32 : lt_seed 0 0 (2 ^ 32) = 0 := by
  show (0 ^^^ 0 ^^^ (2 ^ 32 <<< 16)) % 2 ^ 32 = 0
  rw [Nat.zero_xor, Nat.zero_xor, Nat.shiftLeft_eq]
  exact Nat.mul_mod_right _ _

theorem xsInit_zero_eq : xsInit 0 = 0xDEADBEEF := by
  show (if (0:ℕ) = 0 then 0xDEADBEEF else 0) % 2 ^ 32 = 0xDEADBEEF
  rw [if_pos rfl]
  norm_num

theorem xsInit_zero_bounds : (0 : ℕ) < xsInit 0 ∧ xsInit 0 < 2 ^ 32 := by
  rw [xsInit_zero_eq]
  constructor <;> norm_num

theorem draw_clamp_degree_max :
    max 1 (min (2 ^ 32)
      (sample_degree (List.replicate (2 ^ 32 + 1) (0 : ℚ))
        (xsInit (lt_seed 0 0 (2 ^ 32)))).1) = 2 ^ 32 := by
  have hinit : (0 : ℕ) < xsInit (lt_seed 0 0 (2 ^ 32)) ∧
      xsInit (lt_seed 0 0 (2 ^ 32)) < 2 ^ 32 := by
    rw [lt_seed_zero_K32]
    exact xsInit_zero_bounds
  rw [sample_degree_all_zero _ hinit.1 hinit.2]
  simp

theorem draw_diverges_at_K32 :
    ¬ drawTerminates (2 ^ 32) (2 ^ 32)
      (sample_degree (List.replicate (2 ^ 32 + 1) (0 : ℚ))
        (xsInit (lt_seed 0 0 (2 ^ 32)))).2 := by
  have hinit : (0 : ℕ) < xsInit (lt_seed 0 0 (2 ^ 32)) ∧
      xsInit (lt_seed 0 0 (2 ^ 32)) < 2 ^ 32 := by
    rw [lt_seed_zero_K32]
    exact xsInit_zero_bounds
  intro ⟨fuel, hf⟩
  have h2 : (sample_degree (List.replicate (2 ^ 32 + 1) (0 : ℚ))
      (xsInit (lt_seed 0 0 (2 ^ 32)))).2 = xsStep (xsInit (lt_seed 0 0 (2 ^ 32))) := rfl
  rw [h2, drawFuel_none_at_K32 fuel _ [] (xsStep_pos hinit.1 hinit.2) (xsStep_lt _)
    List.nodup_nil (by intro c hc; cases hc)] at hf
  cases hf

/-! # Claim theorems -/

attribute [local semireducible] Rat.add Rat.mul Rat.inv Rat.sub

/-- C1 (amended): decoding is exact whenever it completes — after feeding all
frames of one `build_frames` loop, the decoder either stalls (`none`) or
returns the original payload exactly. -/
theorem decode_complete_exact (data : List ℕ) (csz : ℕ) (overhead : ℚ)
    (fecSeed : ℕ) (sid : List ℕ) (salts : ℕ → List ℕ) (R : ℕ) (lg : ℚ)
    (hcsz : 1 ≤ csz) (hL : data.length < 2 ^ 32) (fl : List Frame)
    (hfl : build_frames data csz overhead fecSeed sid salts R lg = some fl)
    (out : List ℕ) (hout : decode_frames fl = some out) : out = data := by
  obtain ⟨fl2, hfl2, hlen2, hmap2, hfr2⟩ :=
    build_frames_spec data csz overhead fecSeed sid salts R lg hcsz hL
  rw [hfl] at hfl2
  injection hfl2 with he
  subst he
  apply decode_frames_sound data csz sid fecSeed R lg hcsz hL fl _ out hout
  intro fr hfr
  obtain ⟨hv, hsid, hlenf, hK, hcs, hr, hx, henc⟩ := hfr2 fr hfr
  exact ⟨hsid, hlenf, hK, hr, henc⟩

/-- C1 witness: payload `[1,2,3]`, chunk size 1, overhead 12/100, fec seed 0:
the four frames of the loop decode back to the payload, exactly as the
amended claim states. -/
theorem decode_complete_exact_witness :
    decode_frames ((build_frames [1, 2, 3] 1 (12 / 100) 0 [7]
        (fun _ => []) 1 0).getD []) = some [1, 2, 3] ∧
    ([1, 2, 3] : List ℕ) = [1, 2, 3] :=
  ⟨by decide,
   decode_complete_exact [1, 2, 3] 1 (12 / 100) 0 [7] (fun _ => []) 1 0
     (by decide) (by decide)
     ((build_frames [1, 2, 3] 1 (12 / 100) 0 [7] (fun _ => []) 1 0).getD [])
     (by decide) [1, 2, 3] (by decide)⟩

/-- C1 counterexample: the unamended round-trip claim fails.  With payload
`[1,2,3]`, chunk size 1, overhead 12/100 (so K = 3 and N = 4) and fec seed 4,
`build_frames` succeeds but its four symbols never cover chunk 0, so feeding
all N frames of the loop once does not reconstruct the payload. -/
theorem lt_roundtrip_one_loop_fails :
    (build_frames [1, 2, 3] 1 (12 / 100) 4 [7] (fun _ => []) 1 0).isSome = true ∧
    (build_frames [1, 2, 3] 1 (12 / 100) 4 [7] (fun _ => []) 1 0).bind decode_frames
      ≠ some [1, 2, 3] := by
  constructor
  · decide
  · decide

/-- C2: the chunker yields `ceil(L/csz)` chunks when `L > 0` and the single
chunk `[0]` when `L = 0`, so `K ≥ 1` always; every chunk is padded to the
common length `cs`; `K·cs ≥ L`; and flattening the chunks then truncating to
`L` restores the payload. -/
theorem build_chunks_spec (data : List ℕ) (csz : ℕ) (hcsz : 1 ≤ csz) :
    1 ≤ (build_chunks data csz).length ∧
    (1 ≤ data.length →
      (((build_chunks data csz).length : ℤ) = ⌈(data.length : ℚ) / (csz : ℚ)⌉)) ∧
    (data.length = 0 → build_chunks data csz = [[0]]) ∧
    (∀ c ∈ build_chunks data csz, c.length = chunk_cs data csz) ∧
    data.length ≤ (build_chunks data csz).length * chunk_cs data csz ∧
    (build_chunks data csz).flatten.take data.length = data := by
  refine ⟨build_chunks_len_pos data csz, ?_, ?_, build_chunks_all_cs data csz,
    build_chunks_L_le hcsz data, build_chunks_flatten_take hcsz data⟩
  · intro hL
    have hne : data ≠ [] := by
      intro h
      subst h
      simp at hL
    rw [build_chunks_length_of_ne hcsz data hne]
    exact nat_ceil_div_eq hcsz hL
  · intro hL
    have hnil : data = [] := List.eq_nil_of_length_eq_zero hL
    subst hnil
    exact build_chunks_nil csz

/-- C2 witness: payload `[9, 9, 9]` with chunk size 2 — two chunks, padded to
length 2, flatten-take restores the payload. -/
theorem build_chunks_spec_witness :
    1 ≤ (build_chunks [9, 9, 9] 2).length ∧
    (1 ≤ ([9, 9, 9] : List ℕ).length →
      (((build_chunks [9, 9, 9] 2).length : ℤ) =
        ⌈((([9, 9, 9] : List ℕ).length : ℚ)) / ((2 : ℕ) : ℚ)⌉)) ∧
    (([9, 9, 9] : List ℕ).length = 0 → build_chunks [9, 9, 9] 2 = [[0]]) ∧
    (∀ c ∈ build_chunks [9, 9, 9] 2, c.length = chunk_cs [9, 9, 9] 2) ∧
    ([9, 9, 9] : List ℕ).length ≤
      (build_chunks [9, 9, 9] 2).length * chunk_cs [9, 9, 9] 2 ∧
    (build_chunks [9, 9, 9] 2).flatten.take ([9, 9, 9] : List ℕ).length =
      [9, 9, 9] :=
  build_chunks_spec [9, 9, 9] 2 (by norm_num)

/-- C3: on `K ≥ 1` chunks of common length `cs`, `lt_encode_symbol` returns a
pair `(p, d)` with `1 ≤ d ≤ K`, an underlying index set of exactly `d`
distinct indices in `[0, K)`, and `p` of length `cs` equal byte-wise to the
XOR of the chunks at those indices. -/
theorem lt_encode_symbol_props (chunks : List (List ℕ)) (symId fecSeed : ℕ)
    (cdf : List ℚ) (cs : ℕ) (hall : ∀ c ∈ chunks, c.length = cs)
    (hK1 : 1 ≤ chunks.length) (hK : chunks.length < 2 ^ 32) :
    ∃ p d idxs, lt_encode_symbol chunks symId fecSeed cdf = some (p, d) ∧
      lt_indices chunks.length symId fecSeed cdf = some (idxs, d) ∧
      1 ≤ d ∧ d ≤ chunks.length ∧ idxs.Nodup ∧ (∀ j ∈ idxs, j < chunks.length) ∧
      idxs.length = d ∧ p.length = cs ∧
      ∀ pos, pos < cs → p.getD pos 0 =
        (idxs.map fun j => (chunks.getD j []).getD pos 0).foldr (· ^^^ ·) 0 :=
  lt_encode_symbol_spec chunks symId fecSeed cdf cs hall hK1 hK

/-- C3 witness: chunks `[[1], [2], [3]]` (K = 3, cs = 1), symbol 0, seed 0
with the K = 3 CDF. -/
theorem lt_encode_symbol_props_witness :
    (∀ c ∈ ([[1], [2], [3]] : List (List ℕ)), c.length = 1) ∧
    (∃ p d idxs,
      lt_encode_symbol [[1], [2], [3]] 0 0 (robust_soliton_cdf 3 1 0) =
        some (p, d) ∧
      lt_indices ([[1], [2], [3]] : List (List ℕ)).length 0 0
        (robust_soliton_cdf 3 1 0) = some (idxs, d) ∧
      1 ≤ d ∧ d ≤ ([[1], [2], [3]] : List (List ℕ)).length ∧ idxs.Nodup ∧
      (∀ j ∈ idxs, j < ([[1], [2], [3]] : List (List ℕ)).length) ∧
      idxs.length = d ∧ p.length = 1 ∧
      ∀ pos, pos < 1 → p.getD pos 0 =
        (idxs.map fun j =>
          (([[1], [2], [3]] : List (List ℕ)).getD j []).getD pos 0).foldr
          (· ^^^ ·) 0) :=
  ⟨by decide,
   lt_encode_symbol_props [[1], [2], [3]] 0 0 (robust_soliton_cdf 3 1 0) 1
     (by decide) (by decide) (by decide)⟩

/-- C4: the degree and chunk-index set are a function of
`(fec_seed, i, K)` and the CDF alone — chunk contents play no part: two chunk
lists of the same length `K` receive the identical `(idxs, d)`, and equal
chunk lists give bit-identical symbol bytes. -/
theorem lt_encode_deterministic (c1 c2 : List (List ℕ)) (symId fecSeed : ℕ)
    (cdf : List ℚ) (cs1 cs2 : ℕ) (hall1 : ∀ c ∈ c1, c.length = cs1)
    (hall2 : ∀ c ∈ c2, c.length = cs2) (hlen : c1.length = c2.length)
    (hK1 : 1 ≤ c1.length) (hK : c1.length < 2 ^ 32) :
    ∃ idxs d p1 p2,
      lt_indices c1.length symId fecSeed cdf = some (idxs, d) ∧
      lt_indices c2.length symId fecSeed cdf = some (idxs, d) ∧
      lt_encode_symbol c1 symId fecSeed cdf = some (p1, d) ∧
      lt_encode_symbol c2 symId fecSeed cdf = some (p2, d) ∧
      (c1 = c2 → p1 = p2) := by
  obtain ⟨p1, d1, idxs1, henc1, hidx1, -, -, -, -, -, -, -⟩ :=
    lt_encode_symbol_spec c1 symId fecSeed cdf cs1 hall1 hK1 hK
  obtain ⟨p2, d2, idxs2, henc2, hidx2, -, -, -, -, -, -, -⟩ :=
    lt_encode_symbol_spec c2 symId fecSeed cdf cs2 hall2 (hlen ▸ hK1) (hlen ▸ hK)
  rw [← hlen] at hidx2
  rw [hidx1] at hidx2
  injection hidx2 with hpair
  have hi : idxs1 = idxs2 := congrArg Prod.fst hpair
  have hd : d1 = d2 := congrArg Prod.snd hpair
  subst hi
  subst hd
  refine ⟨idxs1, d1, p1, p2, hidx1, ?_, henc1, henc2, ?_⟩
  · rw [← hlen]
    exact hidx1
  · intro hceq
    subst hceq
    rw [henc1] at henc2
    injection henc2 with hp
    exact congrArg Prod.fst hp

/-- C4 witness: two chunk lists of length K = 3 with different contents and
different chunk sizes receive the same index set and degree. -/
theorem lt_encode_deterministic_witness :
    (∀ c ∈ ([[5], [6], [7]] : List (List ℕ)), c.length = 1) ∧
    (∃ idxs d p1 p2,
      lt_indices ([[5], [6], [7]] : List (List ℕ)).length 0 0
        (robust_soliton_cdf 3 1 0) = some (idxs, d) ∧
      lt_indices ([[9, 9], [8, 8], [7, 7]] : List (List ℕ)).length 0 0
        (robust_soliton_cdf 3 1 0) = some (idxs, d) ∧
      lt_encode_symbol [[5], [6], [7]] 0 0 (robust_soliton_cdf 3 1 0) =
        some (p1, d) ∧
      lt_encode_symbol [[9, 9], [8, 8], [7, 7]] 0 0 (robust_soliton_cdf 3 1 0) =
        some (p2, d) ∧
      (([[5], [6], [7]] : List (List ℕ)) = [[9, 9], [8, 8], [7, 7]] →
        p1 = p2)) :=
  ⟨by decide,
   lt_encode_deterministic [[5], [6], [7]] [[9, 9], [8, 8], [7, 7]] 0 0
     (robust_soliton_cdf 3 1 0) 1 2 (by decide) (by decide) (by decide)
     (by decide) (by decide)⟩

/-- C5 (amended): the rejection loop drawing `d` distinct indices terminates
for every valid generator state and every `d ≤ K` whenever `1 ≤ K < 2^32`;
the unrestricted claim fails at `K = 2^32`. -/
theorem draw_loop_terminates (K d s : ℕ) (hK1 : 1 ≤ K) (hK : K < 2 ^ 32)
    (hd : d ≤ K) (hs0 : 0 < s) (hs : s < 2 ^ 32) : drawTerminates K d s :=
  ⟨d * 4294967295,
   drawFuel_term hK1 hK hd d s [] hs0 hs List.nodup_nil
     (fun c hc => absurd hc (List.not_mem_nil c)) (by simp)⟩

/-- C5 witness: K = 3, degree 2, state 1. -/
theorem draw_loop_terminates_witness : (0 : ℕ) < 1 ∧ drawTerminates 3 2 1 :=
  ⟨Nat.one_pos,
   draw_loop_terminates 3 2 1 (by norm_num) (by norm_num) (by norm_num)
     (by norm_num) (by norm_num)⟩

/-- C5 counterexample: at `K = 2^32` the clamp `max 1 (min K d)` does reach
`d = K` (here with an all-zero CDF, as the binary search then returns its
upper bound), and the loop then never terminates with any amount of fuel:
the generator never emits the residue 0, so at most `2^32 − 1` distinct
indices are ever collected. -/
theorem draw_loop_diverges_cex :
    max 1 (min (2 ^ 32)
      (sample_degree (List.replicate (2 ^ 32 + 1) (0 : ℚ))
        (xsInit (lt_seed 0 0 (2 ^ 32)))).1) = 2 ^ 32 ∧
    ¬ drawTerminates (2 ^ 32) (2 ^ 32)
      (sample_degree (List.replicate (2 ^ 32 + 1) (0 : ℚ))
        (xsInit (lt_seed 0 0 (2 ^ 32)))).2 :=
  ⟨draw_clamp_degree_max, draw_diverges_at_K32⟩

/-- C6: `build_frames` emits exactly `N = ceil(K·(1+overhead))` frames
carrying symbol indices `0 .. N−1`; 1000 bytes at chunk size 100 and overhead
12/100 give `K = 10`, `cs = 100` and `N = 12`; and any payload (the empty one
included) yields at least one frame whenever `overhead ≥ 0`. -/
theorem build_frames_count (data : List ℕ) (csz : ℕ) (overhead : ℚ)
    (fecSeed : ℕ) (sid : List ℕ) (salts : ℕ → List ℕ) (R : ℕ) (lg : ℚ)
    (hcsz : 1 ≤ csz) (hL : data.length < 2 ^ 32) :
    ∃ fl, build_frames data csz overhead fecSeed sid salts R lg = some fl ∧
      fl.length = (⌈((build_chunks data csz).length : ℚ) * (1 + overhead)⌉).toNat ∧
      fl.map Frame.i = List.range fl.length ∧
      (0 ≤ overhead → 1 ≤ fl.length) ∧
      (data = List.replicate 1000 0 ∧ csz = 100 ∧ overhead = 12 / 100 →
        (build_chunks data csz).length = 10 ∧ chunk_cs data csz = 100 ∧
          fl.length = 12) := by
  obtain ⟨fl, hfl, hlen, hmap, hfr⟩ :=
    build_frames_spec data csz overhead fecSeed sid salts R lg hcsz hL
  refine ⟨fl, hfl, hlen, hmap, ?_, ?_⟩
  · intro hov
    have hK1 := build_chunks_len_pos data csz
    have hK1q : (1 : ℚ) ≤ ((build_chunks data csz).length : ℚ) := by
      exact_mod_cast hK1
    have hx : (1 : ℚ) ≤ ((build_chunks data csz).length : ℚ) * (1 + overhead) := by
      nlinarith
    have hpos : 0 < ⌈((build_chunks data csz).length : ℚ) * (1 + overhead)⌉ :=
      Int.ceil_pos.mpr (by linarith)
    rw [hlen]
    omega
  · rintro ⟨rfl, rfl, rfl⟩
    have h10 : (build_chunks (List.replicate 1000 0) 100).length = 10 := by
      rw [build_chunks_length_of_ne (by norm_num) _ (by simp), List.length_replicate]
    have hcs : chunk_cs (List.replicate 1000 0) 100 = 100 := by decide
    refine ⟨h10, hcs, ?_⟩
    rw [hlen, h10]
    have hc : (⌈(((10 : ℕ) : ℚ)) * (1 + 12 / 100)⌉ : ℤ) = 12 := by
      rw [Int.ceil_eq_iff]
      norm_num
    rw [hc]
    rfl

/-- C6 witness: the concrete scenario of the claim — 1000 zero bytes, chunk
size 100, overhead 12/100. -/
theorem build_frames_count_witness :
    1 ≤ 100 ∧ (List.replicate 1000 (0 : ℕ)).length < 2 ^ 32 ∧
    (∃ fl, build_frames (List.replicate 1000 0) 100 (12 / 100) 0 []
        (fun _ => []) 1 0 = some fl ∧
      fl.length =
        (⌈((build_chunks (List.replicate 1000 0) 100).length : ℚ) *
          (1 + 12 / 100)⌉).toNat ∧
      fl.map Frame.i = List.range fl.length ∧
      ((0 : ℚ) ≤ 12 / 100 → 1 ≤ fl.length) ∧
      ((List.replicate 1000 0 : List ℕ) = List.replicate 1000 0 ∧
          (100 : ℕ) = 100 ∧ (12 / 100 : ℚ) = 12 / 100 →
        (build_chunks (List.replicate 1000 0) 100).length = 10 ∧
        chunk_cs (List.replicate 1000 0) 100 = 100 ∧ fl.length = 12)) :=
  ⟨by norm_num, by simp,
   build_frames_count (List.replicate 1000 0) 100 (12 / 100) 0 []
     (fun _ => []) 1 0 (by norm_num) (by simp)⟩

/-- C7: every frame of one `build_frames` session carries version 1 and the
same session id, total length, K, chunk size and fec seed as every other
frame; the frame at position `j` carries index `i = j`; and a frame record
consists of exactly the ten fields
`v, sid, len, K, cs, i, r, d, p, x`. -/
theorem build_frames_metadata (data : List ℕ) (csz : ℕ) (overhead : ℚ)
    (fecSeed : ℕ) (sid : List ℕ) (salts : ℕ → List ℕ) (R : ℕ) (lg : ℚ)
    (hcsz : 1 ≤ csz) (hL : data.length < 2 ^ 32) :
    ∃ fl, build_frames data csz overhead fecSeed sid salts R lg = some fl ∧
      (∀ j, ∀ hj : j < fl.length, (fl.get ⟨j, hj⟩).i = j) ∧
      (∀ fr ∈ fl, fr.v = 1 ∧ fr.sid = sid ∧ fr.len = data.length ∧
        fr.K = (build_chunks data csz).length ∧ fr.cs = chunk_cs data csz ∧
        fr.r = fecSeed ∧ fr.x = salts fr.i ∧
        fr = ⟨fr.v, fr.sid, fr.len, fr.K, fr.cs, fr.i, fr.r, fr.d, fr.p, fr.x⟩) := by
  obtain ⟨fl, hfl, hlen, hmap, hfr⟩ :=
    build_frames_spec data csz overhead fecSeed sid salts R lg hcsz hL
  refine ⟨fl, hfl, ?_, ?_⟩
  · intro j hj
    have h1 : (fl.map Frame.i).getD j 0 = (List.range fl.length).getD j 0 := by
      rw [hmap]
    rw [List.getD_eq_getElem _ _ (by simpa using hj),
      List.getD_eq_getElem _ _ (by simpa using hj)] at h1
    rw [List.getElem_map, List.getElem_range] at h1
    rw [List.get_eq_getElem]
    exact h1
  · intro fr hfr2
    obtain ⟨hv, hsid, hlenf, hK, hcs, hr, hx, henc⟩ := hfr fr hfr2
    exact ⟨hv, hsid, hlenf, hK, hcs, hr, hx, rfl⟩

/-- C7 witness: payload `[1, 2]`, chunk size 1, overhead 0, fec seed 0,
session id `[5]`. -/
theorem build_frames_metadata_witness :
    1 ≤ 1 ∧ ([1, 2] : List ℕ).length < 2 ^ 32 ∧
    (∃ fl, build_frames [1, 2] 1 0 0 [5] (fun _ => []) 1 0 = some fl ∧
      (∀ j, ∀ hj : j < fl.length, (fl.get ⟨j, hj⟩).i = j) ∧
      (∀ fr ∈ fl, fr.v = 1 ∧ fr.sid = [5] ∧ fr.len = ([1, 2] : List ℕ).length ∧
        fr.K = (build_chunks [1, 2] 1).length ∧ fr.cs = chunk_cs [1, 2] 1 ∧
        fr.r = 0 ∧ fr.x = [] ∧
        fr = ⟨fr.v, fr.sid, fr.len, fr.K, fr.cs, fr.i, fr.r, fr.d, fr.p, fr.x⟩)) :=
  ⟨by norm_num, by decide,
   build_frames_metadata [1, 2] 1 0 0 [5] (fun _ => []) 1 0 (by norm_num)
     (by decide)⟩

/-- C8: for every `K ≥ 1` (and all parameter values), `robust_soliton_cdf K`
has `K + 1` entries, its first entry is 0 and its last entry is exactly 1 —
the 1 is appended unconditionally, no check of the accumulated sum occurs. -/
theorem robust_soliton_cdf_shape (K R : ℕ) (lg : ℚ) (hK : 1 ≤ K) :
    (robust_soliton_cdf K R lg).length = K + 1 ∧
    (robust_soliton_cdf K R lg).getD 0 0 = 0 ∧
    (robust_soliton_cdf K R lg).getLast? = some 1 :=
  ⟨robust_soliton_cdf_length K R lg, robust_soliton_cdf_head K R lg hK,
   robust_soliton_cdf_last K R lg⟩

/-- C8 witness: K = 2 with R = 1. -/
theorem robust_soliton_cdf_shape_witness :
    (robust_soliton_cdf 2 1 0).length = 2 + 1 ∧
    (robust_soliton_cdf 2 1 0).getD 0 0 = 0 ∧
    (robust_soliton_cdf 2 1 0).getLast? = some 1 :=
  robust_soliton_cdf_shape 2 1 0 (by norm_num)

/-- C9: `split_bytes_into_n` fails exactly when `n < 1`; for `n ≥ 1` it
returns exactly `n` parts whose concatenation is the data, the first
`L mod n` of length `L/n + 1` and the remaining `n − L mod n` of length
`L/n`. -/
theorem split_bytes_spec (data : List ℕ) (n : ℕ) :
    (split_bytes_into_n data n = none ↔ n < 1) ∧
    (1 ≤ n → ∃ parts, split_bytes_into_n data n = some parts ∧
      parts.length = n ∧ parts.flatten = data ∧
      parts.map List.length =
        List.replicate (data.length % n) (data.length / n + 1) ++
          List.replicate (n - data.length % n) (data.length / n)) :=
  ⟨split_bytes_into_n_none data n, fun hn => split_bytes_into_n_spec data n hn⟩

/-- C9 witness: five bytes into two parts — `[[1,2,3],[4,5]]`. -/
theorem split_bytes_spec_witness :
    (split_bytes_into_n [1, 2, 3, 4, 5] 2 = none ↔ 2 < 1) ∧
    (1 ≤ 2 → ∃ parts, split_bytes_into_n [1, 2, 3, 4, 5] 2 = some parts ∧
      parts.length = 2 ∧ parts.flatten = [1, 2, 3, 4, 5] ∧
      parts.map List.length =
        List.replicate (([1, 2, 3, 4, 5] : List ℕ).length % 2)
          (([1, 2, 3, 4, 5] : List ℕ).length / 2 + 1) ++
          List.replicate (2 - ([1, 2, 3, 4, 5] : List ℕ).length % 2)
            (([1, 2, 3, 4, 5] : List ℕ).length / 2)) :=
  split_bytes_spec [1, 2, 3, 4, 5] 2

/-- C10: the attach/recover round trip over PDFs breaks at `n = 11`:
`attach_to_pdfs` names part `i` `file_i.bin`, but `recover_from_pdfs`
concatenates attachments in lexicographic name order, which places
`file_10.bin` before `file_2.bin`, permuting the parts. -/
theorem recover_attach_n11_mismatch :
    (attach_to_pdfs (List.range 11) 11).isSome = true ∧
    (attach_to_pdfs (List.range 11) 11).bind recover_from_pdfs ≠
      some (List.range 11) := by
  constructor
  · decide
  · decide
